import Mathlib

/-!
Verification of the Modeling_Tool_MIMIC discrete-event simulation engine.

This file gives a shallow embedding, in Lean 4, of the execution kernel of
the repository (src/modeling_tool): the dictionary-valued state model, the
virtual clock, the priority event queue, the trigger and termination state
machines, dependency validation and Kahn topological ordering, and the two
executors (round-based and event-driven).  Python floats appearing in the
kernel (times, intervals) are modelled as rationals; all times used by the
claims are exactly representable.  Python dictionaries are modelled as
insertion-ordered association lists with first-key lookup and in-place
overwrite, matching dict semantics.  Opaque compiled task actions, guard
expressions and termination expressions (Python exec and eval of
user-supplied strings) are modelled as function parameters returning either
a value or an error, mirroring the fact that the engine treats them as
black boxes that may raise.
-/

namespace MIMIC

/-- Scalar values stored in inputs, outputs and state mappings
(int, float, bool, str in the source data model, plus the None used to
initialise current_outputs). -/
inductive Value where
  | vInt (n : ℤ)
  | vRat (q : ℚ)
  | vBool (b : Bool)
  | vStr (s : String)
  | vNone
deriving DecidableEq

/-- Python truthiness of a scalar value, as used by bool(...) on the result
of evaluating a compiled expression. -/
def Value.truthy : Value → Bool
  | .vInt n => n ≠ 0
  | .vRat q => q ≠ 0
  | .vBool b => b
  | .vStr s => s ≠ ""
  | .vNone => false

/-- A Python dict mapping names to scalar values: insertion-ordered
association list; lookup returns the (unique) binding of a key. -/
def Smap := List (String × Value)

instance : DecidableEq Smap := by unfold Smap; infer_instance

/-- Dict lookup (d[k] / d.get(k)). -/
def Smap.get (m : Smap) (k : String) : Option Value :=
  match m with
  | [] => none
  | (k₁, v) :: rest => if k₁ = k then some v else Smap.get rest k

/-- Dict assignment d[k] = v: overwrite in place if the key exists,
otherwise append (Python dicts preserve insertion order). -/
def Smap.set (m : Smap) (k : String) (v : Value) : Smap :=
  match m with
  | [] => [(k, v)]
  | (k₁, v₁) :: rest =>
    if k₁ = k then (k₁, v) :: rest else (k₁, v₁) :: Smap.set rest k v

/-- Dict d.update(other): assign every binding of other, in order. -/
def Smap.update (m other : Smap) : Smap :=
  other.foldl (fun acc kv => acc.set kv.1 kv.2) m

/-- Key membership (k in d). -/
def Smap.hasKey (m : Smap) (k : String) : Bool :=
  (m.get k).isSome

/-! ## SimulationTime (simulation_time.py) -/

/-- The monotone virtual clock.  Mirrors class SimulationTime. -/
structure SimulationTime where
  current_time : ℚ
  start_time : ℚ
deriving DecidableEq

/-- Constructor: both fields start at initial_time. -/
def SimulationTime.make (initial_time : ℚ) : SimulationTime :=
  { current_time := initial_time, start_time := initial_time }

/-- advance_to raises ValueError when moving backwards, otherwise sets
current_time. -/
def SimulationTime.advance_to (st : SimulationTime) (new_time : ℚ) :
    Except String SimulationTime :=
  if new_time < st.current_time then
    .error "Cannot move time backwards"
  else
    .ok { st with current_time := new_time }

/-- advance_by raises on negative delta, otherwise adds it. -/
def SimulationTime.advance_by (st : SimulationTime) (delta : ℚ) :
    Except String SimulationTime :=
  if delta < 0 then
    .error "cannot advance by a negative time"
  else
    .ok { st with current_time := st.current_time + delta }

/-- elapsed() returns current_time - start_time. -/
def SimulationTime.elapsed (st : SimulationTime) : ℚ :=
  st.current_time - st.start_time

/-- reset(time), exactly as written in the source.  The source body is
    self.current_time = time
    self.start_time - time
The second line is a bare subtraction expression, not an assignment, so
start_time is left unchanged. -/
def SimulationTime.reset (st : SimulationTime) (time : ℚ) : SimulationTime :=
  { st with current_time := time }

/-! ## Events and the event queue (event.py, event_queue.py) -/

/-- An Event: time, name, priority, data payload, optional source task.
Ordering (dataclass order=True with name/data/source_task compare=False)
only ever compares time and priority; the queue adds an insertion counter
before the dataclass comparison can be reached, so ties never consult it. -/
structure Event where
  time : ℚ
  name : String
  priority : ℤ := 0
  data : Smap := []
  source_task : Option String := none
deriving DecidableEq

/-- A pending event accumulated by an EventEmitter during one task run:
emit(event_name, data, delay, priority). -/
structure PendingEvent where
  name : String
  data : Smap
  delay : ℚ
  priority : ℤ
deriving DecidableEq

/-- EventEmitter.emit wraps a non-None data argument as a one-key dict. -/
def emitData (data : Option Value) : Smap :=
  match data with
  | some v => [("value", v)]
  | none => []

/-- A heap entry: the tuple (event.time, event.priority, counter, event)
pushed by EventQueue.push. -/
structure QEntry where
  time : ℚ
  priority : ℤ
  counter : ℕ
  event : Event
deriving DecidableEq

/-- Lexicographic comparison of heap keys (time, priority, counter),
which is how heapq orders the pushed tuples (the counter is unique, so the
Event component is never compared). -/
def QEntry.keyLE (x y : QEntry) : Prop :=
  x.time < y.time ∨ (x.time = y.time ∧
    (x.priority < y.priority ∨ (x.priority = y.priority ∧ x.counter ≤ y.counter)))

instance (x y : QEntry) : Decidable (x.keyLE y) := by
  unfold QEntry.keyLE; infer_instance

/-- Strict lexicographic comparison of heap keys. -/
def QEntry.keyLT (x y : QEntry) : Prop :=
  x.time < y.time ∨ (x.time = y.time ∧
    (x.priority < y.priority ∨ (x.priority = y.priority ∧ x.counter < y.counter)))

/-- The event queue: the multiset of live heap entries plus the monotone
insertion counter.  The list order is a representation artefact; pop always
extracts the entry with the least (time, priority, counter) key, which is
exactly the element heapq.heappop returns. -/
structure EventQueue where
  entries : List QEntry
  counter : ℕ
deriving DecidableEq

/-- EventQueue.push: add the keyed entry, bump the counter. -/
def EventQueue.push (q : EventQueue) (e : Event) : EventQueue :=
  { entries := q.entries ++ [⟨e.time, e.priority, q.counter, e⟩],
    counter := q.counter + 1 }

/-- Extract the entry with minimal key together with the remaining
entries (the semantics of heapq.heappop on the entry multiset). -/
def popMin : List QEntry → Option (QEntry × List QEntry)
  | [] => none
  | e :: es =>
    match popMin es with
    | none => some (e, [])
    | some (m, rest) =>
      if e.keyLE m then some (e, es) else some (m, e :: rest)

/-- EventQueue.pop: remove and return the next event, or None when empty. -/
def EventQueue.pop (q : EventQueue) : Option Event × EventQueue :=
  match popMin q.entries with
  | none => (none, q)
  | some (m, rest) => (some m.event, { q with entries := rest })

/-- EventQueue.peek: the next event without removing it. -/
def EventQueue.peek (q : EventQueue) : Option Event :=
  match popMin q.entries with
  | none => none
  | some (m, _) => some m.event

/-- EventQueue.is_empty. -/
def EventQueue.is_empty (q : EventQueue) : Bool :=
  q.entries.length = 0

/-- The empty queue (EventQueue.__init__). -/
def EventQueue.empty : EventQueue := { entries := [], counter := 0 }

/-- Repeatedly popping the queue dry: the order in which pop returns the
entries.  Fuel equal to the number of entries always suffices since each
pop removes exactly one entry. -/
def drainAux : ℕ → List QEntry → List QEntry
  | 0, _ => []
  | fuel + 1, l =>
    match popMin l with
    | none => []
    | some (m, rest) => m :: drainAux fuel rest

def drain (l : List QEntry) : List QEntry :=
  drainAux l.length l

/-- Entry x is returned by pop strictly before entry y when the queue is
popped dry. -/
def EventQueue.popsBefore (q : EventQueue) (x y : QEntry) : Prop :=
  [x, y].Sublist (drain q.entries)

/-! ### Order facts about heap keys -/

theorem QEntry.keyLE_refl (x : QEntry) : x.keyLE x := by
  right; exact ⟨rfl, Or.inr ⟨rfl, le_refl _⟩⟩

theorem QEntry.keyLE_total (x y : QEntry) : x.keyLE y ∨ y.keyLE x := by
  unfold QEntry.keyLE
  rcases lt_trichotomy x.time y.time with h | h | h
  · exact Or.inl (Or.inl h)
  · rcases lt_trichotomy x.priority y.priority with h₂ | h₂ | h₂
    · exact Or.inl (Or.inr ⟨h, Or.inl h₂⟩)
    · rcases Nat.le_total x.counter y.counter with h₃ | h₃
      · exact Or.inl (Or.inr ⟨h, Or.inr ⟨h₂, h₃⟩⟩)
      · exact Or.inr (Or.inr ⟨h.symm, Or.inr ⟨h₂.symm, h₃⟩⟩)
    · exact Or.inr (Or.inr ⟨h.symm, Or.inl h₂⟩)
  · exact Or.inr (Or.inl h)

theorem QEntry.keyLE_trans {x y z : QEntry} (hxy : x.keyLE y) (hyz : y.keyLE z) :
    x.keyLE z := by
  unfold QEntry.keyLE at *
  rcases hxy with h₁ | ⟨e₁, h₁⟩
  · rcases hyz with h₂ | ⟨e₂, _⟩
    · exact Or.inl (h₁.trans h₂)
    · exact Or.inl (e₂ ▸ h₁)
  · rcases hyz with h₂ | ⟨e₂, h₂⟩
    · exact Or.inl (e₁ ▸ h₂)
    · refine Or.inr ⟨e₁.trans e₂, ?_⟩
      rcases h₁ with p₁ | ⟨ep₁, c₁⟩
      · rcases h₂ with p₂ | ⟨ep₂, _⟩
        · exact Or.inl (p₁.trans p₂)
        · exact Or.inl (ep₂ ▸ p₁)
      · rcases h₂ with p₂ | ⟨ep₂, c₂⟩
        · exact Or.inl (ep₁ ▸ p₂)
        · exact Or.inr ⟨ep₁.trans ep₂, c₁.trans c₂⟩

theorem QEntry.keyLT_irrefl (x : QEntry) : ¬ x.keyLT x := by
  unfold QEntry.keyLT
  rintro (h | ⟨_, h | ⟨_, h⟩⟩) <;> exact absurd h (by simp)

theorem QEntry.keyLT_not_keyLE {x y : QEntry} (h : x.keyLT y) : ¬ y.keyLE x := by
  unfold QEntry.keyLT at h
  unfold QEntry.keyLE
  rcases h with h | ⟨e, h⟩
  · rintro (h₂ | ⟨e₂, _⟩)
    · exact absurd (h.trans h₂) (by simp)
    · exact absurd (e₂ ▸ h) (by simp)
  · rintro (h₂ | ⟨e₂, h₃⟩)
    · exact absurd (e ▸ h₂) (by simp)
    · rcases h with p | ⟨ep, c⟩
      · rcases h₃ with p₂ | ⟨ep₂, _⟩
        · exact absurd (p.trans p₂) (by simp)
        · exact absurd (ep₂ ▸ p) (by simp)
      · rcases h₃ with p₂ | ⟨ep₂, c₂⟩
        · exact absurd (ep ▸ p₂) (by simp)
        · omega

/-! ### popMin and drain facts -/

theorem popMin_none {l : List QEntry} (h : popMin l = none) : l = [] := by
  cases l with
  | nil => rfl
  | cons e es =>
    simp only [popMin] at h
    rcases h₂ : popMin es with _ | ⟨m, rest⟩ <;> rw [h₂] at h
    · simp at h
    · by_cases hle : e.keyLE m <;> simp [hle] at h

theorem popMin_perm {l : List QEntry} {m : QEntry} {rest : List QEntry}
    (h : popMin l = some (m, rest)) : l.Perm (m :: rest) := by
  induction l generalizing m rest with
  | nil => simp [popMin] at h
  | cons e es ih =>
    simp only [popMin] at h
    rcases h₂ : popMin es with _ | ⟨m', rest'⟩ <;> rw [h₂] at h
    · have : es = [] := popMin_none h₂
      subst this
      simp at h
      obtain ⟨rfl, rfl⟩ := h
      exact List.Perm.refl _
    · by_cases hle : e.keyLE m' <;> simp [hle] at h
      · obtain ⟨rfl, rfl⟩ := h
        exact List.Perm.refl _
      · obtain ⟨rfl, rfl⟩ := h
        exact ((ih h₂).cons e).trans (List.Perm.swap _ _ _)

theorem popMin_min {l : List QEntry} {m : QEntry} {rest : List QEntry}
    (h : popMin l = some (m, rest)) : ∀ x ∈ l, m.keyLE x := by
  induction l generalizing m rest with
  | nil => simp [popMin] at h
  | cons e es ih =>
    simp only [popMin] at h
    rcases h₂ : popMin es with _ | ⟨m', rest'⟩ <;> rw [h₂] at h
    · have : es = [] := popMin_none h₂
      subst this
      simp at h
      obtain ⟨rfl, rfl⟩ := h
      intro x hx
      simp at hx
      subst hx
      exact QEntry.keyLE_refl _
    · by_cases hle : e.keyLE m' <;> simp [hle] at h
      · obtain ⟨rfl, rfl⟩ := h
        intro x hx
        rcases List.mem_cons.mp hx with rfl | hx
        · exact QEntry.keyLE_refl _
        · exact QEntry.keyLE_trans hle (ih h₂ x hx)
      · obtain ⟨rfl, rfl⟩ := h
        intro x hx
        rcases List.mem_cons.mp hx with rfl | hx
        · rcases QEntry.keyLE_total x m' with hge | hge
          · exact absurd hge hle
          · exact hge
        · exact ih h₂ x hx

theorem popMin_length {l : List QEntry} {m : QEntry} {rest : List QEntry}
    (h : popMin l = some (m, rest)) : l.length = rest.length + 1 := by
  simpa using (popMin_perm h).length_eq

theorem drainAux_nil (fuel : ℕ) : drainAux fuel [] = [] := by
  cases fuel <;> simp [drainAux, popMin]

theorem drainAux_congr :
    ∀ fuel₁ fuel₂ (l : List QEntry), l.length ≤ fuel₁ → l.length ≤ fuel₂ →
      drainAux fuel₁ l = drainAux fuel₂ l := by
  intro fuel₁
  induction fuel₁ with
  | zero =>
    intro fuel₂ l h₁ _
    have : l = [] := List.length_eq_zero.mp (Nat.le_zero.mp h₁)
    subst this
    simp [drainAux_nil, drainAux]
  | succ f ih =>
    intro fuel₂ l h₁ h₂
    cases l with
    | nil => simp [drainAux_nil]
    | cons e es =>
      cases fuel₂ with
      | zero => simp at h₂
      | succ f₂ =>
        simp only [drainAux]
        rcases h₃ : popMin (e :: es) with _ | ⟨m, rest⟩
        · rfl
        · have hlen := popMin_length h₃
          simp at hlen h₁ h₂
          show m :: drainAux f rest = m :: drainAux f₂ rest
          rw [ih f₂ rest (by omega) (by omega)]

theorem drain_cons {l : List QEntry} {m : QEntry} {rest : List QEntry}
    (h : popMin l = some (m, rest)) : drain l = m :: drain rest := by
  have hlen := popMin_length h
  unfold drain
  rw [hlen]
  simp only [drainAux, h]

theorem drain_perm : ∀ (n : ℕ) (l : List QEntry), l.length = n → (drain l).Perm l := by
  intro n
  induction n with
  | zero =>
    intro l h
    have : l = [] := List.length_eq_zero.mp h
    subst this
    simp [drain, drainAux]
  | succ k ih =>
    intro l h
    rcases h₂ : popMin l with _ | ⟨m, rest⟩
    · rw [popMin_none h₂] at h
      simp at h
    · rw [drain_cons h₂]
      have hlen := popMin_length h₂
      have : rest.length = k := by omega
      exact ((ih rest this).cons m).trans (popMin_perm h₂).symm

theorem drain_sorted : ∀ (n : ℕ) (l : List QEntry), l.length = n →
    (drain l).Pairwise QEntry.keyLE := by
  intro n
  induction n with
  | zero =>
    intro l h
    have : l = [] := List.length_eq_zero.mp h
    subst this
    simp [drain, drainAux]
  | succ k ih =>
    intro l h
    rcases h₂ : popMin l with _ | ⟨m, rest⟩
    · rw [popMin_none h₂] at h
      simp at h
    · rw [drain_cons h₂]
      have hlen := popMin_length h₂
      refine List.Pairwise.cons ?_ (ih rest (by omega))
      intro y hy
      have hy₂ : y ∈ rest := (drain_perm rest.length rest rfl).mem_iff.mp hy
      have hy₃ : y ∈ l := (popMin_perm h₂).mem_iff.mpr (List.mem_cons_of_mem m hy₂)
      exact popMin_min h₂ y hy₃

theorem sublist_drain : ∀ (n : ℕ) (l : List QEntry) (x y : QEntry),
    l.length = n → x ∈ l → y ∈ l → x.keyLT y → [x, y].Sublist (drain l) := by
  intro n
  induction n with
  | zero =>
    intro l x y h hx _ _
    have : l = [] := List.length_eq_zero.mp h
    subst this
    simp at hx
  | succ k ih =>
    intro l x y h hx hy hlt
    rcases h₂ : popMin l with _ | ⟨m, rest⟩
    · rw [popMin_none h₂] at hx
      simp at hx
    · rw [drain_cons h₂]
      have hlen := popMin_length h₂
      by_cases hmx : m = x
      · subst hmx
        have hyne : y ≠ m := by
          rintro rfl
          exact QEntry.keyLT_irrefl _ hlt
        have hy₂ : y ∈ rest := by
          rcases List.mem_cons.mp ((popMin_perm h₂).mem_iff.mp hy) with h₃ | h₃
          · exact absurd h₃ hyne
          · exact h₃
        have hy₃ : y ∈ drain rest := (drain_perm rest.length rest rfl).mem_iff.mpr hy₂
        exact (List.singleton_sublist.mpr hy₃).cons₂ m
      · have hmy : m ≠ y := by
          rintro rfl
          exact QEntry.keyLT_not_keyLE hlt (popMin_min h₂ x hx)
        have hx₂ : x ∈ rest := by
          rcases List.mem_cons.mp ((popMin_perm h₂).mem_iff.mp hx) with h₃ | h₃
          · exact absurd h₃.symm hmx
          · exact h₃
        have hy₂ : y ∈ rest := by
          rcases List.mem_cons.mp ((popMin_perm h₂).mem_iff.mp hy) with h₃ | h₃
          · exact absurd h₃.symm hmy
          · exact h₃
        exact (ih rest x y (by omega) hx₂ hy₂ hlt).cons m

/-- C5: for every EventQueue and any two events a and b pushed in that
order, pop returns a before b iff (a.time, a.priority) is lexicographically
at most (b.time, b.priority); and pushing events with (time, priority) =
(1,0), (1,0), (1,-1) in that order makes pop return the third, then the
first, then the second. -/
theorem c5_event_queue_pop_order :
    (∀ (q : EventQueue) (a b : Event),
      ((q.push a).push b).popsBefore
          ⟨a.time, a.priority, q.counter, a⟩
          ⟨b.time, b.priority, q.counter + 1, b⟩
        ↔ (a.time < b.time ∨ (a.time = b.time ∧ a.priority ≤ b.priority)))
  ∧ (let e₁ : Event := { time := 1, name := "first" }
     let e₂ : Event := { time := 1, name := "second" }
     let e₃ : Event := { time := 1, name := "third", priority := -1 }
     let q := ((EventQueue.empty.push e₁).push e₂).push e₃
     (q.pop.1 = some e₃ ∧ q.pop.2.pop.1 = some e₁ ∧
      q.pop.2.pop.2.pop.1 = some e₂)) := by
  constructor
  · intro q a b
    set ea : QEntry := ⟨a.time, a.priority, q.counter, a⟩ with hea
    set eb : QEntry := ⟨b.time, b.priority, q.counter + 1, b⟩ with heb
    have hentries : ((q.push a).push b).entries = (q.entries ++ [ea]) ++ [eb] := by
      simp [EventQueue.push, hea, heb]
    constructor
    · intro h
      have hsorted := drain_sorted ((q.push a).push b).entries.length
        ((q.push a).push b).entries rfl
      have hsub : [ea, eb].Sublist (drain ((q.push a).push b).entries) := h
      have hpair := (List.pairwise_cons.mp (List.Pairwise.sublist hsub hsorted)).1 eb
        (List.mem_singleton.mpr rfl)
      rcases hpair with h₁ | ⟨h₁, h₂ | ⟨h₂, _⟩⟩
      · exact Or.inl h₁
      · exact Or.inr ⟨h₁, le_of_lt h₂⟩
      · exact Or.inr ⟨h₁, le_of_eq h₂⟩
    · intro h
      have hlt : ea.keyLT eb := by
        rcases h with h | ⟨h₁, h₂⟩
        · exact Or.inl h
        · rcases lt_or_eq_of_le h₂ with h₃ | h₃
          · exact Or.inr ⟨h₁, Or.inl h₃⟩
          · exact Or.inr ⟨h₁, Or.inr ⟨h₃, by simp [hea, heb]⟩⟩
      have hma : ea ∈ ((q.push a).push b).entries := by
        rw [hentries]; simp
      have hmb : eb ∈ ((q.push a).push b).entries := by
        rw [hentries]; simp
      exact sublist_drain _ _ ea eb rfl hma hmb hlt
  · decide

/-- C6: the claim says that after reset(t) both current_time and start_time
equal t, so elapsed() is 0.  In the source the body of reset is
"self.current_time = time" followed by the bare expression
"self.start_time - time" (a no-op: the assignment operator is missing), so
start_time keeps its old value.  Evaluating the code as written at the
failing input reset(3) on a clock started at 0: start_time stays 0 and
elapsed() returns 3, not 0. -/
theorem c6_reset_leaves_start_time :
    ((SimulationTime.make 0).reset 3).current_time = 3 ∧
    ((SimulationTime.make 0).reset 3).start_time = 0 ∧
    ((SimulationTime.make 0).reset 3).elapsed = 3 ∧
    ¬ (((SimulationTime.make 0).reset 3).start_time = 3 ∧
       ((SimulationTime.make 0).reset 3).elapsed = 0) := by
  refine ⟨rfl, rfl, ?_, ?_⟩
  · show (3 : ℚ) - 0 = 3
    norm_num
  · rintro ⟨h, _⟩
    have h₂ : (0 : ℚ) = 3 := h
    norm_num at h₂

/-! ## Triggers (trigger.py) -/

/-- The four trigger state machines.  The compiled condition of a
ConditionTrigger is an opaque evaluator (Python eval of the compiled
expression against a namespace holding state and current_time) that may
raise; it is modelled as a function returning a value or an error.
PeriodicTrigger.last_execution starts at -infinity, modelled as none. -/
inductive Trigger where
  | periodic (interval : ℚ) (last_execution : Option ℚ)
  | onEvent (event_name : String)
  | condition (compiled_condition : Smap → ℚ → Except String Value) (was_true : Bool)
  | immediate (has_run : Bool)

/-- should_activate(event_name, state, current_time): returns the decision
and the trigger with its latch updated, mirroring the in-place mutation of
the Python objects.  PeriodicTrigger fires when current_time minus
last_execution is at least interval (always, while the latch is still
-infinity) and then latches current_time.  EventTrigger compares the event
name.  ConditionTrigger fires on a false-to-true edge and always updates
its latch on successful evaluation; an evaluation error returns false and
leaves the latch untouched (the assignment in the source is inside the
try block, after the point that raises).  ImmediateTrigger fires once. -/
def Trigger.should_activate (tr : Trigger) (event_name : String) (state : Smap)
    (current_time : ℚ) : Bool × Trigger :=
  match tr with
  | .periodic interval last =>
    match last with
    | none => (true, .periodic interval (some current_time))
    | some l =>
      if interval ≤ current_time - l then (true, .periodic interval (some current_time))
      else (false, tr)
  | .onEvent n => (decide (event_name = n), tr)
  | .condition f was_true =>
    match f state current_time with
    | .ok v => (v.truthy && !was_true, .condition f v.truthy)
    | .error _ => (false, tr)
  | .immediate has_run =>
    if has_run then (false, tr) else (true, .immediate true)

/-- PeriodicTrigger.get_next_time: last_execution + interval.  While the
latch is still -infinity the Python result would be -infinity, modelled as
none; the executor only calls this right after a successful
should_activate, which has latched a finite time.  Non-periodic triggers
do not carry this method. -/
def Trigger.get_next_time : Trigger → Option ℚ
  | .periodic interval last => last.map (fun l => l + interval)
  | _ => none

/-- isinstance(task.trigger, PeriodicTrigger). -/
def Trigger.isPeriodic : Trigger → Bool
  | .periodic _ _ => true
  | _ => false

/-! ## Execution log (execution_log.py) -/

/-- One RoundRecord: a snapshot appended after a round or event step. -/
structure RoundRecord where
  round_number : ℕ
  inputs : Smap
  outputs : Smap
  state : Smap
  task_order : Option (List String)
deriving DecidableEq

/-- ExecutionLog: append-only ordered list of RoundRecords. -/
structure ExecutionLog where
  rounds : List RoundRecord
deriving DecidableEq

def ExecutionLog.empty : ExecutionLog := ⟨[]⟩

/-- ExecutionLog.add_round appends one record. -/
def ExecutionLog.add_round (log : ExecutionLog) (round_number : ℕ)
    (inputs outputs state : Smap) (task_order : Option (List String)) :
    ExecutionLog :=
  { rounds := log.rounds ++ [⟨round_number, inputs, outputs, state, task_order⟩] }

/-! ## Termination conditions (termination.py) -/

/-- The termination condition variants.  StateCondition carries the opaque
compiled expression (eval against a namespace holding only state). -/
inductive TerminationCondition where
  | maxRounds (max_rounds : ℕ)
  | stateCond (compiled_condition : Smap → Except String Value)
  | composite (conds : List TerminationCondition)
  | maxTime (max_time : ℚ)
  | maxEvents (max_events : ℕ)
  | emptyQueue

mutual
/-- should_terminate(round_number, state, log, **kwargs).  The kwargs bag
(current_time, event_count, event_queue) is modelled by three Option
arguments; kwargs.get defaults apply when absent, exactly as in the
source.  A raised exception is an Except.error: StateCondition wraps an
evaluation failure in a RuntimeError instead of returning false. -/
def TerminationCondition.should_terminate :
    TerminationCondition → ℕ → Smap → ExecutionLog → Option ℚ → Option ℕ →
      Option EventQueue → Except String Bool
  | .maxRounds n, round_number, _, _, _, _, _ => .ok (decide (n ≤ round_number))
  | .stateCond f, round_number, state, _, _, _, _ =>
    if round_number = 0 then .ok false
    else
      match f state with
      | .ok v => .ok v.truthy
      | .error e => .error ("Error evaluating termination condition: " ++ e)
  | .composite conds, r, s, l, ct, ec, eq =>
    TerminationCondition.anyTerminates conds r s l ct ec eq
  | .maxTime t, _, _, _, current_time, _, _ => .ok (decide (t ≤ current_time.getD 0))
  | .maxEvents n, _, _, _, _, event_count, _ => .ok (decide (n ≤ event_count.getD 0))
  | .emptyQueue, _, _, _, _, _, event_queue =>
    match event_queue with
    | none => .ok true
    | some q => .ok q.is_empty

/-- CompositeCondition: any(...) over the children, short-circuiting on the
first true and propagating a raised error. -/
def TerminationCondition.anyTerminates :
    List TerminationCondition → ℕ → Smap → ExecutionLog → Option ℚ → Option ℕ →
      Option EventQueue → Except String Bool
  | [], _, _, _, _, _, _ => .ok false
  | c :: cs, r, s, l, ct, ec, eq =>
    match c.should_terminate r s l ct ec eq with
    | .error e => .error e
    | .ok true => .ok true
    | .ok false => TerminationCondition.anyTerminates cs r s l ct ec eq
end

/-- C8: StateCondition.should_terminate returns false whenever
round_number is 0, regardless of the state; and for positive rounds, when
the compiled condition raises, the error is raised to the caller (wrapped
as a RuntimeError) rather than false being returned. -/
theorem c8_state_condition_round_zero_and_errors
    (f : Smap → Except String Value) (state : Smap) (log : ExecutionLog)
    (ct : Option ℚ) (ec : Option ℕ) (eq : Option EventQueue) :
    ((TerminationCondition.stateCond f).should_terminate 0 state log ct ec eq
        = .ok false)
  ∧ (∀ (r : ℕ) (e : String), 0 < r → f state = .error e →
      (TerminationCondition.stateCond f).should_terminate r state log ct ec eq
        = .error ("Error evaluating termination condition: " ++ e)) := by
  constructor
  · simp [TerminationCondition.should_terminate]
  · intro r e hr he
    have hr₂ : r ≠ 0 := Nat.pos_iff_ne_zero.mp hr
    simp [TerminationCondition.should_terminate, hr₂, he]

/-- Witness for C8 at a concrete state condition whose evaluation fails. -/
theorem c8_state_condition_witness :
    ((TerminationCondition.stateCond (fun _ => .error "boom")).should_terminate
        0 [] ExecutionLog.empty none none none = .ok false)
  ∧ ((TerminationCondition.stateCond (fun _ => .error "boom")).should_terminate
        1 [] ExecutionLog.empty none none none
        = .error ("Error evaluating termination condition: " ++ "boom")) :=
  ⟨(c8_state_condition_round_zero_and_errors (fun _ => .error "boom") []
      ExecutionLog.empty none none none).1,
   (c8_state_condition_round_zero_and_errors (fun _ => .error "boom") []
      ExecutionLog.empty none none none).2 1 "boom" (by decide) rfl⟩

/-! ## Tasks (task.py) -/

/-- The outcome of running a task's compiled action (Python exec against a
namespace of inputs/outputs/state wrappers, plus emit_event, current_time
and event_data in the event-driven executor): the possibly mutated outputs
and state mappings, the events emitted into the per-run EventEmitter, and,
when the body raised, the error.  Mutations made before the raise are
still recorded in outputs/state — whether they become visible is decided
by the caller, which is exactly the isolation discipline under scrutiny. -/
structure ActionResult where
  outputs : Smap
  state : Smap
  pending_events : List PendingEvent
  error : Option String

/-- A compiled task action: a function of the inputs, outputs and state
mappings handed to exec, plus current_time and event_data. -/
def TaskAction : Type :=
  Smap → Smap → Smap → ℚ → Smap → ActionResult

/-- A Task: name, dependency names, compiled action, plus the trigger and
guard condition attributes that the parser attaches dynamically for
event-driven components (hasattr checks in the executor, hence Option). -/
structure Task where
  name : String
  depends_on : List String
  action : TaskAction
  trigger : Option Trigger := none
  condition : Option (Smap → ℚ → Except String Value) := none

/-! ## Dependency graph, validation and topological order (component.py) -/

/-- Lookup in an insertion-ordered association list. -/
def AList.find {β : Type} : List (String × β) → String → Option β
  | [], _ => none
  | (k₁, v) :: rest, k => if k₁ = k then some v else AList.find rest k

/-- In-place update of the value at a key; no-op when the key is absent. -/
def AList.modifyVal {β : Type} (m : List (String × β)) (k : String) (f : β → β) :
    List (String × β) :=
  match m with
  | [] => []
  | (k₁, v) :: rest =>
    if k₁ = k then (k₁, f v) :: rest else (k₁, v) :: AList.modifyVal rest k f

/-- The dict comprehension graph = (task.name maps to task): on duplicate
names the later binding overwrites the earlier one, so lookup takes the
last matching task. -/
def graphFind (tasks : List Task) (n : String) : Option Task :=
  tasks.reverse.find? (fun t => t.name == n)

/-- The dependency graph used by the cycle check and by Kahn ordering:
graph.get(node, []) over the dict (task.name maps to task.depends_on). -/
def depGraph (tasks : List Task) (n : String) : List String :=
  ((graphFind tasks n).map Task.depends_on).getD []

/-- The dict comprehension (task.name maps to the constant d): duplicate
names keep their first position, values all equal d. -/
def initKeysAux {β : Type} (d : β) (acc : List (String × β)) :
    List Task → List (String × β)
  | [] => acc
  | t :: ts =>
    initKeysAux d
      (if (AList.find acc t.name).isSome then acc else acc ++ [(t.name, d)]) ts

/-- in_degree = (task.name maps to 0). -/
def initInDegree (tasks : List Task) : List (String × ℤ) :=
  initKeysAux 0 [] tasks

/-- adjacency = (task.name maps to the empty list). -/
def initAdjacency (tasks : List Task) : List (String × List String) :=
  initKeysAux [] [] tasks

/-- The inner edge loop of get_task_execution_order for one task: for each
dependency, adjacency[dependency].append(task.name) and
in_degree[task.name] += 1.  An unknown dependency is a Python KeyError on
the adjacency dict, modelled as an error. -/
def addTaskEdges (tname : String) :
    List String → List (String × ℤ) × List (String × List String) →
      Except String (List (String × ℤ) × List (String × List String))
  | [], acc => .ok acc
  | d :: ds, (indeg, adj) =>
    match AList.find adj d with
    | none => .error ("KeyError: " ++ d)
    | some _ =>
      addTaskEdges tname ds
        (AList.modifyVal indeg tname (fun v => v + 1),
         AList.modifyVal adj d (fun l => l ++ [tname]))

/-- The outer edge loop over all tasks. -/
def addAllEdges :
    List Task → List (String × ℤ) × List (String × List String) →
      Except String (List (String × ℤ) × List (String × List String))
  | [], acc => .ok acc
  | t :: ts, acc =>
    match addTaskEdges t.name t.depends_on acc with
    | .error e => .error e
    | .ok acc₂ => addAllEdges ts acc₂

/-- One pass over adjacency[current] inside the Kahn while loop:
decrement each neighbour's in-degree, appending it to the queue exactly
when the degree reaches 0.  (A neighbour missing from in_degree would be a
Python KeyError; it cannot happen because adjacency only ever holds task
names, which are all in_degree keys.) -/
def processNeighbors :
    List String → List (String × ℤ) → List String →
      List (String × ℤ) × List String
  | [], indeg, q => (indeg, q)
  | nb :: nbs, indeg, q =>
    match AList.find indeg nb with
    | none => processNeighbors nbs indeg q
    | some v =>
      processNeighbors nbs (AList.modifyVal indeg nb (fun _ => v - 1))
        (if v - 1 = 0 then q ++ [nb] else q)

/-- The Kahn while loop: pop the queue front, append the popped name to
the order, process its adjacency list.  Every iteration removes one queue
element and every name enters the queue at most twice over a run (once
from the initial zero-degree seed, at most once when its monotonically
decreasing degree first reaches zero), so fuel 2n+1 over-approximates the
number of iterations for every input and the fuel branch is dead code. -/
def kahnLoop (adj : List (String × List String)) :
    ℕ → List (String × ℤ) → List String → List String → List String
  | 0, _, _, ordered => ordered
  | fuel + 1, indeg, queue, ordered =>
    match queue with
    | [] => ordered
    | current :: rest =>
      let neighbors := (AList.find adj current).getD []
      let step := processNeighbors neighbors indeg rest
      kahnLoop adj fuel step.1 step.2 (ordered ++ [current])

/-- Component.get_task_execution_order: build in_degree and adjacency,
seed the queue with the zero-in-degree names in dict order, run Kahn's
algorithm, map the ordered names back to tasks through the graph dict and
check that every task was ordered (raising ComponentError otherwise). -/
def get_task_execution_order (tasks : List Task) : Except String (List Task) :=
  match addAllEdges tasks (initInDegree tasks, initAdjacency tasks) with
  | .error e => .error e
  | .ok (indeg, adj) =>
    let queue₀ := indeg.filterMap (fun p => if p.2 = 0 then some p.1 else none)
    let orderedNames := kahnLoop adj (2 * tasks.length + 1) indeg queue₀ []
    let ordered_tasks := orderedNames.filterMap (fun n => graphFind tasks n)
    if ordered_tasks.length = tasks.length then .ok ordered_tasks
    else .error "Failed to order tasks"

/-- An explicit dependency cycle: a nonempty chain of dependency edges
(from a task to one of its depends_on entries) from some node back to
itself. -/
def HasCycle (tasks : List Task) : Prop :=
  ∃ (n : String) (p : List String),
    List.Chain (fun a b => b ∈ depGraph tasks a) n (p ++ [n])

/-! ## Cycle detection and construction validation (component.py) -/

/-- The mutable visited / rec_stack sets of _has_circular_dependencies. -/
structure DfsState where
  visited : List String
  rec_stack : List String

mutual
/-- The inner dfs of _has_circular_dependencies: mark the node visited and
on the recursion stack, scan its neighbours, then pop the node off the
stack.  Each recursive call consumes an unvisited node, so the depth is
bounded by the number of distinct names plus one; with the fuel the driver
supplies the fuel-exhausted branch (which conservatively reports a cycle)
is dead code. -/
def dfs (tasks : List Task) : ℕ → String → DfsState → Bool × DfsState
  | 0, _, st => (true, st)
  | fuel + 1, node, st =>
    let st₁ : DfsState :=
      { visited := node :: st.visited, rec_stack := node :: st.rec_stack }
    match dfsScan tasks fuel (depGraph tasks node) st₁ with
    | (true, st₂) => (true, st₂)
    | (false, st₂) => (false, { st₂ with rec_stack := st₂.rec_stack.erase node })
termination_by fuel _ _ => (fuel, 0, 0)

/-- The neighbour loop inside dfs: an unvisited neighbour is explored
recursively (propagating a found cycle); a visited neighbour still on the
recursion stack is a back edge and reports a cycle; otherwise continue. -/
def dfsScan (tasks : List Task) : ℕ → List String → DfsState → Bool × DfsState
  | _, [], st => (false, st)
  | fuel, nb :: nbs, st =>
    if nb ∈ st.visited then
      if nb ∈ st.rec_stack then (true, st)
      else dfsScan tasks fuel nbs st
    else
      match dfs tasks fuel nb st with
      | (true, st₂) => (true, st₂)
      | (false, st₂) => dfsScan tasks fuel nbs st₂
termination_by fuel nbs _ => (fuel, 1, nbs.length)
end

/-- Dict key iteration order: first occurrence of each name. -/
def dedupKeepFirst (seen : List String) : List String → List String
  | [] => []
  | x :: xs =>
    if x ∈ seen then dedupKeepFirst seen xs
    else x :: dedupKeepFirst (x :: seen) xs

/-- for task_name in graph: the keys of the task dict in insertion order. -/
def graphKeys (tasks : List Task) : List String :=
  dedupKeepFirst [] (tasks.map Task.name)

/-- The driver loop of _has_circular_dependencies: run dfs from every not
yet visited key, sharing the visited set across roots. -/
def hasCircLoop (tasks : List Task) : List String → DfsState → Bool
  | [], _ => false
  | k :: ks, st =>
    if k ∈ st.visited then hasCircLoop tasks ks st
    else
      match dfs tasks (tasks.length + 1) k st with
      | (true, _) => true
      | (false, st₂) => hasCircLoop tasks ks st₂

/-- Component._has_circular_dependencies. -/
def has_circular_dependencies (tasks : List Task) : Bool :=
  hasCircLoop tasks (graphKeys tasks) ⟨[], []⟩

/-- The Component record after construction. -/
structure Component where
  name : String
  state : Smap
  inputs : List String
  outputs : List String
  tasks : List Task
  current_outputs : Smap

/-- The first task/dependency pair whose dependency is not a sibling task
name, in validation order (_validate_tasks raises on it). -/
def findUnknownDep (task_names : List String) : List Task → Option (String × String)
  | [] => none
  | t :: ts =>
    match t.depends_on.find? (fun d => !task_names.contains d) with
    | some d => some (t.name, d)
    | none => findUnknownDep task_names ts

/-- Component.__init__: copy the declared state, run _validate_tasks
(unknown dependencies first, then the cycle check, each raising
ComponentError), then initialise current_outputs with a None entry per
output port.  No task is executed anywhere in construction. -/
def mkComponent (name : String) (state : Smap) (inputs outputs : List String)
    (tasks : List Task) : Except String Component :=
  match findUnknownDep (tasks.map Task.name) tasks with
  | some (tn, d) => .error ("Task " ++ tn ++ " depends on unknown task " ++ d)
  | none =>
    if has_circular_dependencies tasks then
      .error ("Circular task dependencies detected in component " ++ name)
    else
      .ok { name := name, state := state, inputs := inputs, outputs := outputs,
            tasks := tasks,
            current_outputs := outputs.map (fun o => (o, Value.vNone)) }

/-! ### Association list facts -/

theorem AList.find_modifyVal {β : Type} (m : List (String × β)) (k : String)
    (f : β → β) (x : String) :
    AList.find (AList.modifyVal m k f) x =
      if x = k then (AList.find m x).map f else AList.find m x := by
  induction m with
  | nil => simp [AList.modifyVal, AList.find]
  | cons p rest ih =>
    obtain ⟨k₁, v⟩ := p
    by_cases h₁ : k₁ = k
    · subst h₁
      by_cases h₂ : k₁ = x
      · subst h₂
        simp [AList.modifyVal, AList.find]
      · simp [AList.modifyVal, AList.find, h₂, Ne.symm h₂]
    · by_cases h₂ : k₁ = x
      · subst h₂
        simp [AList.modifyVal, AList.find, h₁]
      · simp [AList.modifyVal, AList.find, h₁, h₂, ih]

theorem AList.keys_modifyVal {β : Type} (m : List (String × β)) (k : String)
    (f : β → β) :
    (AList.modifyVal m k f).map Prod.fst = m.map Prod.fst := by
  induction m with
  | nil => simp [AList.modifyVal]
  | cons p rest ih =>
    obtain ⟨k₁, v⟩ := p
    by_cases h₁ : k₁ = k <;> simp [AList.modifyVal, h₁, ih]

theorem AList.find_append {β : Type} (m₁ m₂ : List (String × β)) (x : String) :
    AList.find (m₁ ++ m₂) x =
      match AList.find m₁ x with
      | some v => some v
      | none => AList.find m₂ x := by
  induction m₁ with
  | nil => simp [AList.find]
  | cons p rest ih =>
    obtain ⟨k₁, v⟩ := p
    by_cases h₁ : k₁ = x <;> simp [AList.find, h₁, ih]

theorem AList.find_isSome_iff {β : Type} (m : List (String × β)) (x : String) :
    (AList.find m x).isSome ↔ x ∈ m.map Prod.fst := by
  induction m with
  | nil => simp [AList.find]
  | cons p rest ih =>
    obtain ⟨k₁, v⟩ := p
    by_cases h₁ : k₁ = x
    · simp [AList.find, h₁]
    · simp [AList.find, h₁, Ne.symm h₁, ih]

theorem AList.find_of_mem_nodup {β : Type} {m : List (String × β)}
    (hnd : (m.map Prod.fst).Nodup) {k : String} {v : β} (hm : (k, v) ∈ m) :
    AList.find m k = some v := by
  induction m with
  | nil => simp at hm
  | cons p rest ih =>
    obtain ⟨k₁, v₁⟩ := p
    rw [List.map_cons, List.nodup_cons] at hnd
    rcases List.mem_cons.mp hm with h | h
    · injection h with h₁ h₂
      subst h₁
      subst h₂
      simp [AList.find]
    · have hkmem : k ∈ rest.map Prod.fst := List.mem_map_of_mem Prod.fst h
      have hk : k₁ ≠ k := fun he => hnd.1 (he ▸ hkmem)
      simp [AList.find, hk, ih hnd.2 h]

/-! ### Graph-building characterisation -/

theorem initKeysAux_eq {β : Type} (d : β) :
    ∀ (ts : List Task) (acc : List (String × β)),
      (ts.map Task.name).Nodup →
      (∀ t ∈ ts, AList.find acc t.name = none) →
      initKeysAux d acc ts = acc ++ ts.map (fun t => (t.name, d)) := by
  intro ts
  induction ts with
  | nil => intro acc _ _; simp [initKeysAux]
  | cons t ts ih =>
    intro acc hnd hfind
    have hft : AList.find acc t.name = none := hfind t (List.mem_cons_self t ts)
    simp at hnd
    simp only [initKeysAux, hft, Option.isSome_none, Bool.false_eq_true, if_neg,
      Bool.not_eq_true]
    rw [if_neg (by simp [hft])]
    rw [ih (acc ++ [(t.name, d)]) hnd.2]
    · simp
    · intro s hs
      rw [AList.find_append]
      have hneq : t.name ≠ s.name := fun h => hnd.1 s hs h.symm
      simp [AList.find, hfind s (List.mem_cons_of_mem t hs), hneq]

theorem initInDegree_eq {tasks : List Task}
    (hnd : (tasks.map Task.name).Nodup) :
    initInDegree tasks = tasks.map (fun t => (t.name, (0 : ℤ))) := by
  simpa [initInDegree] using initKeysAux_eq 0 tasks [] hnd (by simp [AList.find])

theorem initAdjacency_eq {tasks : List Task}
    (hnd : (tasks.map Task.name).Nodup) :
    initAdjacency tasks = tasks.map (fun t => (t.name, ([] : List String))) := by
  simpa [initAdjacency] using initKeysAux_eq [] tasks [] hnd (by simp [AList.find])

theorem AList.find_map_const {β : Type} (d : β) :
    ∀ (ts : List Task) (x : String),
      AList.find (ts.map fun t => (t.name, d)) x =
        if x ∈ ts.map Task.name then some d else none := by
  intro ts
  induction ts with
  | nil => simp [AList.find]
  | cons t ts ih =>
    intro x
    by_cases h₁ : t.name = x
    · simp [AList.find, h₁]
    · simp [AList.find, h₁, ih, Ne.symm h₁]

theorem find?_append {α : Type} (p : α → Bool) (l₁ l₂ : List α) :
    List.find? p (l₁ ++ l₂) =
      match List.find? p l₁ with
      | some a => some a
      | none => List.find? p l₂ := by
  induction l₁ with
  | nil => simp
  | cons a l₁ ih =>
    by_cases h : p a <;> simp [List.find?, h, ih]

theorem graphFind_some {tasks : List Task} {n : String} {t : Task}
    (h : graphFind tasks n = some t) : t ∈ tasks ∧ t.name = n := by
  unfold graphFind at h
  have hmem := List.mem_of_find?_eq_some h
  have hp := List.find?_some h
  simp at hp
  exact ⟨List.mem_reverse.mp hmem, hp⟩

theorem graphFind_of_nodup {tasks : List Task}
    (hnd : (tasks.map Task.name).Nodup) {t : Task} (ht : t ∈ tasks) :
    graphFind tasks t.name = some t := by
  induction tasks with
  | nil => simp at ht
  | cons t₀ ts ih =>
    simp at hnd
    unfold graphFind
    simp only [List.reverse_cons]
    rw [find?_append]
    rcases List.mem_cons.mp ht with rfl | hts
    · have hnone : List.find? (fun s => s.name == t.name) ts.reverse = none := by
        rw [List.find?_eq_none]
        intro s hs
        simp only [beq_iff_eq]
        intro he
        exact hnd.1 s (List.mem_reverse.mp hs) he
      simp [hnone, List.find?]
    · have := ih hnd.2 hts
      unfold graphFind at this
      simp [this]

theorem depGraph_of_nodup {tasks : List Task}
    (hnd : (tasks.map Task.name).Nodup) {t : Task} (ht : t ∈ tasks) :
    depGraph tasks t.name = t.depends_on := by
  simp [depGraph, graphFind_of_nodup hnd ht]

/-- Specification helper: the total number of dependency occurrences the
edge loop over ts adds to in_degree[x]. -/
def degContrib (ts : List Task) (x : String) : ℕ :=
  ((ts.filter (fun t => t.name == x)).map (fun t => t.depends_on.length)).sum

/-- Specification helper: the number of copies of y the edge loop over ts
appends to adjacency[x]. -/
def adjContrib (ts : List Task) (x y : String) : ℕ :=
  ((ts.filter (fun t => t.name == y)).map (fun t => t.depends_on.count x)).sum

theorem addTaskEdges_spec (tn : String) :
    ∀ (ds : List String) (indeg : List (String × ℤ))
      (adj : List (String × List String)),
      (∀ d ∈ ds, (AList.find adj d).isSome) →
      ∃ indeg₂ adj₂,
        addTaskEdges tn ds (indeg, adj) = .ok (indeg₂, adj₂) ∧
        (∀ x, AList.find indeg₂ x =
          if x = tn then (AList.find indeg x).map (fun v => v + (ds.length : ℤ))
          else AList.find indeg x) ∧
        (∀ x, AList.find adj₂ x =
          (AList.find adj x).map (fun l => l ++ List.replicate (ds.count x) tn)) ∧
        indeg₂.map Prod.fst = indeg.map Prod.fst ∧
        adj₂.map Prod.fst = adj.map Prod.fst := by
  intro ds
  induction ds with
  | nil =>
    intro indeg adj _
    refine ⟨indeg, adj, rfl, ?_, ?_, rfl, rfl⟩
    · intro x
      by_cases h : x = tn
      · subst h
        cases AList.find indeg x <;> simp
      · simp [h]
    · intro x
      cases AList.find adj x <;> simp
  | cons d ds₂ ih =>
    intro indeg adj hsome
    obtain ⟨l₀, hl₀⟩ : ∃ l₀, AList.find adj d = some l₀ :=
      Option.isSome_iff_exists.mp (hsome d (List.mem_cons_self _ _))
    set indeg₁ := AList.modifyVal indeg tn (fun v => v + 1) with hindeg₁
    set adj₁ := AList.modifyVal adj d (fun l => l ++ [tn]) with hadj₁
    have hsome₂ : ∀ e ∈ ds₂, (AList.find adj₁ e).isSome := by
      intro e he
      rw [AList.find_isSome_iff, hadj₁, AList.keys_modifyVal,
        ← AList.find_isSome_iff]
      exact hsome e (List.mem_cons_of_mem _ he)
    obtain ⟨indeg₂, adj₂, hok, hdeg, hadj, hkeysI, hkeysA⟩ := ih indeg₁ adj₁ hsome₂
    refine ⟨indeg₂, adj₂, ?_, ?_, ?_, ?_, ?_⟩
    · simpa [addTaskEdges, hl₀] using hok
    · intro x
      rw [hdeg x]
      by_cases hx : x = tn
      · rw [if_pos hx, if_pos hx, hindeg₁, AList.find_modifyVal, if_pos hx]
        cases AList.find indeg x with
        | none => rfl
        | some v =>
          simp only [Option.map_some']
          congr 1
          simp only [List.length_cons]
          push_cast
          ring
      · rw [if_neg hx, if_neg hx, hindeg₁, AList.find_modifyVal, if_neg hx]
    · intro x
      rw [hadj x, hadj₁, AList.find_modifyVal]
      by_cases hx : x = d
      · rw [if_pos hx, hx, hl₀]
        simp only [Option.map_some']
        congr 1
        rw [List.count_cons_self, List.replicate_succ, List.append_assoc,
          List.singleton_append]
      · rw [if_neg hx]
        cases AList.find adj x with
        | none => rfl
        | some l =>
          simp only [Option.map_some']
          congr 2
          rw [List.count_cons_of_ne hx]
    · rw [hkeysI, hindeg₁, AList.keys_modifyVal]
    · rw [hkeysA, hadj₁, AList.keys_modifyVal]

theorem addAllEdges_spec :
    ∀ (ts : List Task) (indeg : List (String × ℤ))
      (adj : List (String × List String)),
      (∀ t ∈ ts, ∀ d ∈ t.depends_on, (AList.find adj d).isSome) →
      ∃ indeg₂ adj₂,
        addAllEdges ts (indeg, adj) = .ok (indeg₂, adj₂) ∧
        (∀ x, AList.find indeg₂ x =
          (AList.find indeg x).map (fun v => v + (degContrib ts x : ℤ))) ∧
        (∀ x l₀, AList.find adj x = some l₀ →
          ∃ l₂, AList.find adj₂ x = some l₂ ∧
            ∀ y, l₂.count y = l₀.count y + adjContrib ts x y) ∧
        indeg₂.map Prod.fst = indeg.map Prod.fst ∧
        adj₂.map Prod.fst = adj.map Prod.fst := by
  intro ts
  induction ts with
  | nil =>
    intro indeg adj _
    refine ⟨indeg, adj, rfl, ?_, ?_, rfl, rfl⟩
    · intro x
      cases AList.find indeg x <;> simp [degContrib]
    · intro x l₀ h
      exact ⟨l₀, h, fun y => by simp [adjContrib]⟩
  | cons t ts₂ ih =>
    intro indeg adj hsome
    obtain ⟨indeg₁, adj₁, hok₁, hdeg₁, hadj₁, hkI₁, hkA₁⟩ :=
      addTaskEdges_spec t.name t.depends_on indeg adj
        (hsome t (List.mem_cons_self _ _))
    have hsome₂ : ∀ s ∈ ts₂, ∀ d ∈ s.depends_on, (AList.find adj₁ d).isSome := by
      intro s hs d hd
      rw [AList.find_isSome_iff, hkA₁, ← AList.find_isSome_iff]
      exact hsome s (List.mem_cons_of_mem _ hs) d hd
    obtain ⟨indeg₂, adj₂, hok₂, hdeg₂, hadj₂, hkI₂, hkA₂⟩ := ih indeg₁ adj₁ hsome₂
    refine ⟨indeg₂, adj₂, ?_, ?_, ?_, ?_, ?_⟩
    · simp only [addAllEdges, hok₁]
      exact hok₂
    · intro x
      rw [hdeg₂ x, hdeg₁ x]
      by_cases hx : x = t.name
      · rw [if_pos hx]
        have hco : degContrib (t :: ts₂) x = t.depends_on.length + degContrib ts₂ x := by
          simp [degContrib, hx]
        rw [hco]
        cases AList.find indeg x with
        | none => rfl
        | some v =>
          simp only [Option.map_some']
          congr 1
          push_cast
          ring
      · rw [if_neg hx]
        have hne : t.name ≠ x := fun h => hx h.symm
        have hco : degContrib (t :: ts₂) x = degContrib ts₂ x := by
          simp [degContrib, hne]
        rw [hco]
    · intro x l₀ hfound
      have hstep : AList.find adj₁ x = some (l₀ ++ List.replicate (t.depends_on.count x) t.name) := by
        rw [hadj₁ x, hfound]
        rfl
      obtain ⟨l₂, hl₂, hcount⟩ := hadj₂ x _ hstep
      refine ⟨l₂, hl₂, ?_⟩
      intro y
      rw [hcount y]
      by_cases hy : t.name = y
      · have hco : adjContrib (t :: ts₂) x y = t.depends_on.count x + adjContrib ts₂ x y := by
          simp [adjContrib, hy]
        rw [hco]
        simp [List.count_append, List.count_replicate, hy.symm]
        omega
      · have hco : adjContrib (t :: ts₂) x y = adjContrib ts₂ x y := by
          simp [adjContrib, hy]
        rw [hco]
        have hne : y ≠ t.name := fun h => hy h.symm
        simp [List.count_append, List.count_replicate, hne]
        exact fun h => absurd h hy
    · rw [hkI₂, hkI₁]
    · rw [hkA₂, hkA₁]

/-! ### Kahn loop invariants -/

/-- Specification helper: the number of dependency occurrences of x whose
dependency has not yet been popped — the running value of in_degree[x]
during the Kahn loop. -/
def unprocDeps (tasks : List Task) (x : String) (ordered : List String) : ℕ :=
  ((depGraph tasks x).filter (fun d => decide (d ∉ ordered))).length

theorem filter_unproc_split (ordered : List String) (current : String)
    (hc : current ∉ ordered) :
    ∀ (l : List String),
      (l.filter (fun d => decide (d ∉ ordered))).length =
        (l.filter (fun d => decide (d ∉ ordered ++ [current]))).length
          + l.count current := by
  intro l
  induction l with
  | nil => simp
  | cons d l ih =>
    rw [List.filter_cons, List.filter_cons]
    by_cases hd : d = current
    · subst hd
      have c₁ : decide (d ∉ ordered) = true := by simpa using hc
      have c₂ : ¬(decide (d ∉ ordered ++ [d]) = true) := by simp
      rw [if_pos c₁, if_neg c₂, List.count_cons_self, List.length_cons, ih]
      omega
    · have h₂ : (d ∈ ordered ++ [current]) ↔ d ∈ ordered := by simp [hd]
      rw [List.count_cons_of_ne (fun h => hd h.symm)]
      by_cases h₃ : d ∈ ordered
      · have c₁ : ¬(decide (d ∉ ordered) = true) := by simpa using h₃
        have c₂ : ¬(decide (d ∉ ordered ++ [current]) = true) := by
          simp
          exact fun hno => absurd h₃ hno
        rw [if_neg c₁, if_neg c₂, ih]
      · have c₁ : decide (d ∉ ordered) = true := by simpa using h₃
        have c₂ : decide (d ∉ ordered ++ [current]) = true := by
          simpa using fun hm => h₃ (h₂.mp hm)
        rw [if_pos c₁, if_pos c₂, List.length_cons, List.length_cons, ih]
        omega

theorem unprocDeps_split (tasks : List Task) (x current : String)
    (ordered : List String) (hc : current ∉ ordered) :
    unprocDeps tasks x ordered =
      unprocDeps tasks x (ordered ++ [current])
        + (depGraph tasks x).count current := by
  unfold unprocDeps
  exact filter_unproc_split ordered current hc (depGraph tasks x)

theorem unprocDeps_zero {tasks : List Task} {x : String} {ordered : List String}
    (h : unprocDeps tasks x ordered = 0) :
    ∀ d ∈ depGraph tasks x, d ∈ ordered := by
  intro d hd
  unfold unprocDeps at h
  rw [List.length_eq_zero] at h
  by_contra hmem
  have : d ∈ (depGraph tasks x).filter (fun d => decide (d ∉ ordered)) :=
    List.mem_filter.mpr ⟨hd, by simpa using hmem⟩
  rw [h] at this
  simp at this

theorem filterMap_if_zero (m : List (String × ℤ)) :
    m.filterMap (fun p => if p.2 = 0 then some p.1 else none) =
      (m.filter (fun p => decide (p.2 = 0))).map Prod.fst := by
  induction m with
  | nil => rfl
  | cons p rest ih =>
    by_cases h : p.2 = 0 <;>
      simp [List.filterMap_cons, List.filter_cons, h, ih]

theorem processNeighbors_spec (tasks : List Task) (ordered₂ : List String) :
    ∀ (nbs : List String) (indeg : List (String × ℤ)) (q : List String),
      indeg.map Prod.fst = tasks.map Task.name →
      (∀ x ∈ tasks.map Task.name, AList.find indeg x =
        some ((unprocDeps tasks x ordered₂ + nbs.count x : ℕ) : ℤ)) →
      (∀ x ∈ tasks.map Task.name,
        (x ∈ q ↔ x ∉ ordered₂ ∧ unprocDeps tasks x ordered₂ = 0 ∧ nbs.count x = 0)) →
      (ordered₂ ++ q).Nodup →
      (∀ x ∈ q, x ∈ tasks.map Task.name) →
      (∀ y ∈ nbs, y ∈ tasks.map Task.name ∧ y ∉ ordered₂) →
      (processNeighbors nbs indeg q).1.map Prod.fst = tasks.map Task.name ∧
      (∀ x ∈ tasks.map Task.name, AList.find (processNeighbors nbs indeg q).1 x =
        some ((unprocDeps tasks x ordered₂ : ℕ) : ℤ)) ∧
      (∀ x ∈ tasks.map Task.name,
        (x ∈ (processNeighbors nbs indeg q).2 ↔
          x ∉ ordered₂ ∧ unprocDeps tasks x ordered₂ = 0)) ∧
      (ordered₂ ++ (processNeighbors nbs indeg q).2).Nodup ∧
      (∀ x ∈ (processNeighbors nbs indeg q).2, x ∈ tasks.map Task.name) := by
  intro nbs
  induction nbs with
  | nil =>
    intro indeg q hkeys hdeg hq hnodup hsubq _
    refine ⟨hkeys, ?_, ?_, hnodup, hsubq⟩
    · intro x hx
      simpa using hdeg x hx
    · intro x hx
      simpa using hq x hx
  | cons nb nbs₂ ih =>
    intro indeg q hkeys hdeg hq hnodup hsubq hnbs
    obtain ⟨hnbn, hnbo⟩ := hnbs nb (List.mem_cons_self _ _)
    have hfind := hdeg nb hnbn
    rw [List.count_cons_self] at hfind
    have hnbq : nb ∉ q := by
      intro hmem
      have h₂ := ((hq nb hnbn).mp hmem).2.2
      rw [List.count_cons_self] at h₂
      omega
    simp only [processNeighbors, hfind]
    have hval : ((unprocDeps tasks nb ordered₂ + (nbs₂.count nb + 1) : ℕ) : ℤ) - 1
        = ((unprocDeps tasks nb ordered₂ + nbs₂.count nb : ℕ) : ℤ) := by
      push_cast
      ring
    have hkeys₂ :
        (AList.modifyVal indeg nb
          (fun _ => ((unprocDeps tasks nb ordered₂ + (nbs₂.count nb + 1) : ℕ) : ℤ) - 1)).map
            Prod.fst = tasks.map Task.name := by
      rw [AList.keys_modifyVal, hkeys]
    have hdeg₂ : ∀ x ∈ tasks.map Task.name,
        AList.find (AList.modifyVal indeg nb
          (fun _ => ((unprocDeps tasks nb ordered₂ + (nbs₂.count nb + 1) : ℕ) : ℤ) - 1)) x =
          some ((unprocDeps tasks x ordered₂ + nbs₂.count x : ℕ) : ℤ) := by
      intro x hx
      rw [AList.find_modifyVal]
      by_cases hxnb : x = nb
      · subst hxnb
        rw [if_pos rfl, hfind]
        simp only [Option.map_some']
        rw [hval]
      · rw [if_neg hxnb]
        have := hdeg x hx
        rw [List.count_cons_of_ne hxnb] at this
        exact this
    by_cases h0 : ((unprocDeps tasks nb ordered₂ + (nbs₂.count nb + 1) : ℕ) : ℤ) - 1 = 0
    · have hU : unprocDeps tasks nb ordered₂ = 0 := by omega
      have hC : nbs₂.count nb = 0 := by omega
      rw [if_pos h0]
      apply ih _ _ hkeys₂ hdeg₂
      · intro x hx
        by_cases hxnb : x = nb
        · subst hxnb
          simp only [List.mem_append, List.mem_singleton]
          constructor
          · intro _
            exact ⟨hnbo, hU, hC⟩
          · intro _
            exact Or.inr trivial
        · have hqx := hq x hx
          rw [List.count_cons_of_ne hxnb] at hqx
          constructor
          · intro hmem
            rcases List.mem_append.mp hmem with hmem | hmem
            · exact hqx.mp hmem
            · exact absurd (List.mem_singleton.mp hmem) hxnb
          · intro hcond
            exact List.mem_append.mpr (Or.inl (hqx.mpr hcond))
      · rw [← List.append_assoc]
        rw [List.nodup_append]
        refine ⟨hnodup, List.nodup_singleton nb, ?_⟩
        intro a ha hb
        rw [List.mem_singleton] at hb
        subst hb
        rcases List.mem_append.mp ha with ha | ha
        · exact hnbo ha
        · exact hnbq ha
      · intro x hx
        rcases List.mem_append.mp hx with hx | hx
        · exact hsubq x hx
        · rw [List.mem_singleton] at hx
          subst hx
          exact hnbn
      · intro y hy
        exact hnbs y (List.mem_cons_of_mem _ hy)
    · rw [if_neg h0]
      apply ih _ _ hkeys₂ hdeg₂
      · intro x hx
        by_cases hxnb : x = nb
        · subst hxnb
          constructor
          · intro hmem
            exact absurd hmem hnbq
          · intro hcond
            exfalso
            apply h0
            have hU := hcond.2.1
            have hC := hcond.2.2
            omega
        · have hqx := hq x hx
          rw [List.count_cons_of_ne hxnb] at hqx
          exact hqx
      · exact hnodup
      · exact hsubq
      · intro y hy
        exact hnbs y (List.mem_cons_of_mem _ hy)

theorem chain_of_succ (g : ℕ → String) (edge : String → String → Prop)
    (h : ∀ k, edge (g k) (g (k + 1))) :
    ∀ (m start : ℕ), List.Chain edge (g start) ((List.range' (start + 1) m).map g) := by
  intro m
  induction m with
  | zero => intro start; simp
  | succ n ih =>
    intro start
    rw [List.range'_succ]
    simp only [List.map_cons]
    exact List.Chain.cons (h start) (ih (start + 1))

theorem kahnLoop_spec (tasks : List Task)
    (hnd : (tasks.map Task.name).Nodup)
    (hclosed : ∀ t ∈ tasks, ∀ d ∈ t.depends_on, d ∈ tasks.map Task.name)
    (hnocycle : ¬ HasCycle tasks)
    (adj : List (String × List String))
    (hadjc : ∀ x ∈ tasks.map Task.name, ∀ y,
      ((AList.find adj x).getD []).count y =
        if y ∈ tasks.map Task.name then (depGraph tasks y).count x else 0) :
    ∀ (fuel : ℕ) (indeg : List (String × ℤ)) (queue ordered : List String),
      indeg.map Prod.fst = tasks.map Task.name →
      (∀ x ∈ tasks.map Task.name, AList.find indeg x =
        some ((unprocDeps tasks x ordered : ℕ) : ℤ)) →
      (ordered ++ queue).Nodup →
      (∀ x ∈ ordered, x ∈ tasks.map Task.name) →
      (∀ x ∈ queue, x ∈ tasks.map Task.name) →
      (∀ x ∈ tasks.map Task.name,
        (x ∈ queue ↔ x ∉ ordered ∧ unprocDeps tasks x ordered = 0)) →
      (∀ (i : ℕ) (h : i < ordered.length),
        ∀ d ∈ depGraph tasks (ordered.get ⟨i, h⟩), d ∈ ordered.take i) →
      tasks.length + 1 - ordered.length ≤ fuel →
      (kahnLoop adj fuel indeg queue ordered).Perm (tasks.map Task.name) ∧
      (∀ (i : ℕ) (h : i < (kahnLoop adj fuel indeg queue ordered).length),
        ∀ d ∈ depGraph tasks ((kahnLoop adj fuel indeg queue ordered).get ⟨i, h⟩),
        d ∈ (kahnLoop adj fuel indeg queue ordered).take i) := by
  intro fuel
  induction fuel with
  | zero =>
    intro indeg queue ordered _ _ hnodup hsubO _ _ _ hfuel
    exfalso
    have h₁ : ordered.Nodup := (List.nodup_append.mp hnodup).1
    have hlen := (h₁.subperm (fun a ha => hsubO a ha)).length_le
    rw [List.length_map] at hlen
    omega
  | succ fuel ih =>
    intro indeg queue ordered hkeys hdeg hnodup hsubO hsubQ hqc htopo hfuel
    cases queue with
    | nil =>
      have hall : ∀ x ∈ tasks.map Task.name, x ∈ ordered := by
        by_contra hnot
        push_neg at hnot
        obtain ⟨x₀, hx₀n, hx₀o⟩ := hnot
        set U := (tasks.map Task.name).filter (fun x => decide (x ∉ ordered)) with hUdef
        have hx₀U : x₀ ∈ U := List.mem_filter.mpr ⟨hx₀n, by simpa using hx₀o⟩
        have hUmem : ∀ u ∈ U, u ∈ tasks.map Task.name ∧ u ∉ ordered := by
          intro u hu
          have h₂ := List.mem_filter.mp hu
          exact ⟨h₂.1, by simpa using h₂.2⟩
        have hstep : ∀ u ∈ U, ∃ d, d ∈ U ∧ d ∈ depGraph tasks u := by
          intro u hu
          obtain ⟨hun, huo⟩ := hUmem u hu
          have hne : unprocDeps tasks u ordered ≠ 0 := by
            intro h0
            have := (hqc u hun).mpr ⟨huo, h0⟩
            simp at this
          have hne2 : (depGraph tasks u).filter (fun d => decide (d ∉ ordered)) ≠ [] := by
            intro hnil
            apply hne
            unfold unprocDeps
            rw [hnil]
            rfl
          obtain ⟨d, hd⟩ := List.exists_mem_of_ne_nil _ hne2
          have hdm := List.mem_filter.mp hd
          have hdg : d ∈ depGraph tasks u := hdm.1
          have hdo : d ∉ ordered := by simpa using hdm.2
          obtain ⟨t, ht, htn⟩ := List.mem_map.mp hun
          have hdep : depGraph tasks u = t.depends_on := by
            rw [← htn]
            exact depGraph_of_nodup hnd ht
          have hdn : d ∈ tasks.map Task.name := hclosed t ht d (hdep ▸ hdg)
          exact ⟨d, List.mem_filter.mpr ⟨hdn, by simpa using hdo⟩, hdg⟩
        have hstep₂ : ∀ u : {s // s ∈ U}, ∃ d : {s // s ∈ U},
            d.val ∈ depGraph tasks u.val := by
          rintro ⟨u, hu⟩
          obtain ⟨d, hdU, hdg⟩ := hstep u hu
          exact ⟨⟨d, hdU⟩, hdg⟩
        choose F hF using hstep₂
        set g : ℕ → {s // s ∈ U} := fun k => F^[k] ⟨x₀, hx₀U⟩ with hgdef
        have hedge : ∀ k, (g (k + 1)).val ∈ depGraph tasks (g k).val := by
          intro k
          have hit : g (k + 1) = F (g k) := Function.iterate_succ_apply' F k _
          rw [hit]
          exact hF (g k)
        have hcard : U.toFinset.card < (Finset.range (U.length + 1)).card := by
          rw [Finset.card_range]
          exact Nat.lt_succ_of_le (List.toFinset_card_le U)
        have hmaps : ∀ k ∈ Finset.range (U.length + 1), (g k).val ∈ U.toFinset := by
          intro k _
          rw [List.mem_toFinset]
          exact (g k).property
        obtain ⟨i, _, j, _, hij, hgij⟩ :=
          Finset.exists_ne_map_eq_of_card_lt_of_maps_to hcard hmaps
        have build : ∀ a b : ℕ, a < b → (g a).val = (g b).val → HasCycle tasks := by
          intro a b hab heq
          refine ⟨(g a).val,
            (List.range' (a + 1) (b - a - 1)).map (fun k => (g k).val), ?_⟩
          have hchain := chain_of_succ (fun k => (g k).val)
            (fun a b => b ∈ depGraph tasks a) hedge (b - a) a
          have hsplit : List.range' (a + 1) (b - a) =
              List.range' (a + 1) (b - a - 1) ++ [b] := by
            have h1 : b - a = (b - a - 1) + 1 := by omega
            rw [h1, List.range'_concat]
            congr 2
            omega
          rw [hsplit, List.map_append] at hchain
          simpa [heq] using hchain
        rcases Nat.lt_or_ge i j with hlt | hge
        · exact hnocycle (build i j hlt hgij)
        · have hlt₂ : j < i := by omega
          exact hnocycle (build j i hlt₂ hgij.symm)
      have h₁ : ordered.Nodup := (List.nodup_append.mp hnodup).1
      have hperm : ordered.Perm (tasks.map Task.name) :=
        (h₁.subperm (fun a ha => hsubO a ha)).antisymm
          (hnd.subperm (fun a ha => hall a ha))
      exact ⟨hperm, htopo⟩
    | cons current rest =>
      have hcn : current ∈ tasks.map Task.name :=
        hsubQ current (List.mem_cons_self _ _)
      have hnodup₂ := List.nodup_append.mp hnodup
      have hco : current ∉ ordered := by
        intro hmem
        exact (hnodup₂.2.2 hmem) (List.mem_cons_self _ _)
      have hcu : unprocDeps tasks current ordered = 0 :=
        ((hqc current hcn).mp (List.mem_cons_self _ _)).2
      set neighbors := (AList.find adj current).getD [] with hnbdef
      have hcount : ∀ x, neighbors.count x =
          if x ∈ tasks.map Task.name then (depGraph tasks x).count current else 0 :=
        fun x => hadjc current hcn x
      have hdeg' : ∀ x ∈ tasks.map Task.name, AList.find indeg x =
          some ((unprocDeps tasks x (ordered ++ [current]) + neighbors.count x : ℕ) : ℤ) := by
        intro x hx
        rw [hdeg x hx, hcount x, if_pos hx]
        have hs := unprocDeps_split tasks x current ordered hco
        congr 1
        exact_mod_cast hs
      have hq' : ∀ x ∈ tasks.map Task.name,
          (x ∈ rest ↔ x ∉ (ordered ++ [current]) ∧
            unprocDeps tasks x (ordered ++ [current]) = 0 ∧ neighbors.count x = 0) := by
        intro x hx
        have hqx := hqc x hx
        have hcr : current ∉ rest := (List.nodup_cons.mp hnodup₂.2.1).1
        have hsplit := unprocDeps_split tasks x current ordered hco
        constructor
        · intro hmem
          obtain ⟨hxo, hx0⟩ := hqx.mp (List.mem_cons_of_mem _ hmem)
          have hxc : x ≠ current := by
            rintro rfl
            exact hcr hmem
          refine ⟨by simp [hxo, hxc], by omega, ?_⟩
          rw [hcount x, if_pos hx]
          omega
        · rintro ⟨hxo₂, hu₂, hc₂⟩
          have hxo : x ∉ ordered := fun h => hxo₂ (by simp [h])
          have hxc : x ≠ current := fun h => hxo₂ (by simp [h])
          rw [hcount x, if_pos hx] at hc₂
          have hre : unprocDeps tasks x ordered = 0 := by omega
          rcases List.mem_cons.mp (hqx.mpr ⟨hxo, hre⟩) with h | h
          · exact absurd h hxc
          · exact h
      have hnodup' : ((ordered ++ [current]) ++ rest).Nodup := by
        rw [List.append_assoc, List.singleton_append]
        exact hnodup
      have hsubq' : ∀ x ∈ rest, x ∈ tasks.map Task.name := fun x hx =>
        hsubQ x (List.mem_cons_of_mem _ hx)
      have hnbs' : ∀ y ∈ neighbors,
          y ∈ tasks.map Task.name ∧ y ∉ (ordered ++ [current]) := by
        intro y hy
        have hypos : 0 < neighbors.count y := List.count_pos_iff.mpr hy
        have hcy := hcount y
        by_cases hyn : y ∈ tasks.map Task.name
        · rw [if_pos hyn] at hcy
          rw [hcy] at hypos
          have hyc : current ∈ depGraph tasks y := List.count_pos_iff.mp hypos
          refine ⟨hyn, ?_⟩
          intro hymem
          rcases List.mem_append.mp hymem with hyo | hycur
          · obtain ⟨n, hget⟩ := List.mem_iff_get.mp hyo
            have hcur₂ := htopo n.1 n.2 current (by rw [hget]; exact hyc)
            exact hco (List.take_subset n.1 ordered hcur₂)
          · rw [List.mem_singleton] at hycur
            subst hycur
            apply hnocycle
            refine ⟨y, [], ?_⟩
            simp only [List.nil_append]
            exact List.Chain.cons hyc List.Chain.nil
        · rw [if_neg hyn] at hcy
          rw [hcy] at hypos
          simp at hypos
      obtain ⟨pk, pd, pq, pn, ps⟩ :=
        processNeighbors_spec tasks (ordered ++ [current]) neighbors indeg rest
          hkeys hdeg' hq' hnodup' hsubq' hnbs'
      have hsubO' : ∀ x ∈ ordered ++ [current], x ∈ tasks.map Task.name := by
        intro x hx
        rcases List.mem_append.mp hx with hx | hx
        · exact hsubO x hx
        · rw [List.mem_singleton] at hx
          subst hx
          exact hcn
      have htopo' : ∀ (i : ℕ) (h : i < (ordered ++ [current]).length),
          ∀ d ∈ depGraph tasks ((ordered ++ [current]).get ⟨i, h⟩),
          d ∈ (ordered ++ [current]).take i := by
        intro i h d hd
        rcases Nat.lt_or_ge i ordered.length with hi | hi
        · have hget : (ordered ++ [current]).get ⟨i, h⟩ = ordered.get ⟨i, hi⟩ := by
            simp [List.getElem_append_left hi]
          rw [hget] at hd
          rw [List.take_append_of_le_length (le_of_lt hi)]
          exact htopo i hi d hd
        · have hieq : i = ordered.length := by
            have h₂ : i < ordered.length + 1 := by simpa using h
            omega
          subst hieq
          have hget : (ordered ++ [current]).get ⟨ordered.length, h⟩ = current := by
            simp
          rw [hget] at hd
          rw [List.take_left]
          exact unprocDeps_zero hcu d hd
      have hfuel' :
          tasks.length + 1 - (ordered ++ [current]).length ≤ fuel := by
        rw [List.length_append, List.length_singleton]
        omega
      have hloop : kahnLoop adj (fuel + 1) indeg (current :: rest) ordered =
          kahnLoop adj fuel (processNeighbors neighbors indeg rest).1
            (processNeighbors neighbors indeg rest).2 (ordered ++ [current]) := rfl
      rw [hloop]
      exact ih (processNeighbors neighbors indeg rest).1
        (processNeighbors neighbors indeg rest).2 (ordered ++ [current])
        pk pd pn hsubO' ps pq htopo' hfuel'

theorem filter_name_eq_singleton {tasks : List Task}
    (hnd : (tasks.map Task.name).Nodup) :
    ∀ t ∈ tasks, tasks.filter (fun s => s.name == t.name) = [t] := by
  induction tasks with
  | nil => simp
  | cons t₀ ts ih =>
    rw [List.map_cons, List.nodup_cons] at hnd
    intro t ht
    rcases List.mem_cons.mp ht with rfl | hts
    · rw [List.filter_cons, if_pos (by simp)]
      have hnil : ts.filter (fun s => s.name == t.name) = [] := by
        rw [List.filter_eq_nil_iff]
        intro s hs
        simp only [beq_iff_eq]
        exact fun he => hnd.1 (he ▸ List.mem_map_of_mem Task.name hs)
      rw [hnil]
    · rw [List.filter_cons, if_neg, ih hnd.2 t hts]
      simp only [beq_iff_eq]
      exact fun he => hnd.1 (he ▸ List.mem_map_of_mem Task.name hts)

theorem filterMap_graphFind_map_name {tasks : List Task}
    (hnd : (tasks.map Task.name).Nodup) :
    ∀ (l : List String), (∀ x ∈ l, x ∈ tasks.map Task.name) →
      (l.filterMap (graphFind tasks)).map Task.name = l := by
  intro l
  induction l with
  | nil => simp
  | cons x l ih =>
    intro h
    obtain ⟨t, ht, htn⟩ := List.mem_map.mp (h x (List.mem_cons_self _ _))
    have hgf : graphFind tasks x = some t := by
      rw [← htn]
      exact graphFind_of_nodup hnd ht
    rw [List.filterMap_cons, hgf]
    simp only [List.map_cons, htn]
    rw [ih (fun y hy => h y (List.mem_cons_of_mem _ hy))]

theorem filterMap_graphFind_of_tasks {tasks : List Task}
    (hnd : (tasks.map Task.name).Nodup) :
    (tasks.map Task.name).filterMap (graphFind tasks) = tasks := by
  have haux : ∀ (ts : List Task), (∀ t ∈ ts, t ∈ tasks) →
      (ts.map Task.name).filterMap (graphFind tasks) = ts := by
    intro ts
    induction ts with
    | nil => simp
    | cons t ts ih =>
      intro h
      have hgf : graphFind tasks t.name = some t :=
        graphFind_of_nodup hnd (h t (List.mem_cons_self _ _))
      rw [List.map_cons, List.filterMap_cons, hgf,
        ih (fun s hs => h s (List.mem_cons_of_mem _ hs))]
  exact haux tasks (fun _ h => h)

theorem mem_filterMap_graphFind {tasks : List Task} {l : List String} {t : Task}
    (h : t ∈ l.filterMap (graphFind tasks)) : t ∈ tasks := by
  obtain ⟨x, _, hgf⟩ := List.mem_filterMap.mp h
  exact (graphFind_some hgf).1

theorem orderedNames_to_tasks {tasks : List Task}
    (hnd : (tasks.map Task.name).Nodup) (orderedNames : List String)
    (hperm : orderedNames.Perm (tasks.map Task.name))
    (htopo : ∀ (i : ℕ) (h : i < orderedNames.length),
      ∀ d ∈ depGraph tasks (orderedNames.get ⟨i, h⟩), d ∈ orderedNames.take i) :
    (orderedNames.filterMap (graphFind tasks)).length = tasks.length ∧
    (orderedNames.filterMap (graphFind tasks)).Perm tasks ∧
    (∀ (i : ℕ) (h : i < (orderedNames.filterMap (graphFind tasks)).length),
      ∀ d ∈ ((orderedNames.filterMap (graphFind tasks)).get ⟨i, h⟩).depends_on,
        d ∈ ((orderedNames.filterMap (graphFind tasks)).take i).map Task.name) := by
  have hON_sub : ∀ x ∈ orderedNames, x ∈ tasks.map Task.name :=
    fun x hx => hperm.subset hx
  have hmapname := filterMap_graphFind_map_name hnd orderedNames hON_sub
  have hlen : (orderedNames.filterMap (graphFind tasks)).length = tasks.length := by
    have h₂ := congrArg List.length hmapname
    rw [List.length_map] at h₂
    rw [h₂, hperm.length_eq, List.length_map]
  have hpermT : (orderedNames.filterMap (graphFind tasks)).Perm tasks := by
    have h₂ := List.Perm.filterMap (graphFind tasks) hperm
    rw [filterMap_graphFind_of_tasks hnd] at h₂
    exact h₂
  refine ⟨hlen, hpermT, ?_⟩
  intro i h d hd
  have hlen₂ : orderedNames.length = (orderedNames.filterMap (graphFind tasks)).length := by
    have h₂ := congrArg List.length hmapname
    rw [List.length_map] at h₂
    omega
  have hIlt : i < orderedNames.length := by omega
  have htimem : (orderedNames.filterMap (graphFind tasks)).get ⟨i, h⟩ ∈ tasks :=
    mem_filterMap_graphFind (List.get_mem _ i h)
  have hgeti : orderedNames.get ⟨i, hIlt⟩ =
      ((orderedNames.filterMap (graphFind tasks)).get ⟨i, h⟩).name := by
    rw [List.get_of_eq hmapname.symm ⟨i, hIlt⟩]
    simp
  have hdg : d ∈ depGraph tasks (orderedNames.get ⟨i, hIlt⟩) := by
    rw [hgeti, depGraph_of_nodup hnd htimem]
    exact hd
  have htake := htopo i hIlt d hdg
  have htk : orderedNames.take i =
      ((orderedNames.filterMap (graphFind tasks)).take i).map Task.name := by
    rw [List.map_take, hmapname]
  rw [htk] at htake
  exact htake

/-- C4 (amended): for every component with unique task names whose
dependencies all name sibling tasks and whose dependency graph is acyclic,
get_task_execution_order() returns (without raising) a permutation of the
component's tasks in which every task appears after all tasks it depends
on.  The returned order is trivially deterministic because the model is a
pure function of the component.  The original claim's stability with
respect to declared order among nodes of equal in-degree does not hold
(see the counterexample); it is dropped here. -/
theorem c4_execution_order_topological_perm (tasks : List Task)
    (hnd : (tasks.map Task.name).Nodup)
    (hclosed : ∀ t ∈ tasks, ∀ d ∈ t.depends_on, d ∈ tasks.map Task.name)
    (hnocycle : ¬ HasCycle tasks) :
    ∃ ordered, get_task_execution_order tasks = .ok ordered ∧
      ordered.Perm tasks ∧
      (∀ (i : ℕ) (h : i < ordered.length),
        ∀ d ∈ (ordered.get ⟨i, h⟩).depends_on,
          d ∈ (ordered.take i).map Task.name) := by
  have hideg := initInDegree_eq hnd
  have hiadj := initAdjacency_eq hnd
  have hfindI : ∀ x, AList.find (initInDegree tasks) x =
      if x ∈ tasks.map Task.name then some (0 : ℤ) else none := by
    intro x
    rw [hideg]
    exact AList.find_map_const 0 tasks x
  have hfindA : ∀ x, AList.find (initAdjacency tasks) x =
      if x ∈ tasks.map Task.name then some ([] : List String) else none := by
    intro x
    rw [hiadj]
    exact AList.find_map_const [] tasks x
  have hsome : ∀ t ∈ tasks, ∀ d ∈ t.depends_on,
      (AList.find (initAdjacency tasks) d).isSome := by
    intro t ht d hd
    rw [hfindA, if_pos (hclosed t ht d hd)]
    rfl
  obtain ⟨indeg, adj, hok, hdegF, hadjF, hkI, hkA⟩ :=
    addAllEdges_spec tasks (initInDegree tasks) (initAdjacency tasks) hsome
  have hkeysI : indeg.map Prod.fst = tasks.map Task.name := by
    rw [hkI, hideg, List.map_map]
    rfl
  have hfilter := filter_name_eq_singleton hnd
  have hdegN : ∀ x ∈ tasks.map Task.name,
      AList.find indeg x = some ((unprocDeps tasks x [] : ℕ) : ℤ) := by
    intro x hx
    obtain ⟨t, ht, rfl⟩ := List.mem_map.mp hx
    rw [hdegF, hfindI, if_pos hx]
    simp only [Option.map_some']
    congr 1
    have h₁ : degContrib tasks t.name = t.depends_on.length := by
      unfold degContrib
      rw [hfilter t ht]
      simp
    have h₂ : unprocDeps tasks t.name [] = t.depends_on.length := by
      unfold unprocDeps
      rw [depGraph_of_nodup hnd ht]
      simp
    rw [h₁, h₂]
    omega
  have hadjN : ∀ x ∈ tasks.map Task.name, ∀ y,
      ((AList.find adj x).getD []).count y =
        if y ∈ tasks.map Task.name then (depGraph tasks y).count x else 0 := by
    intro x hx y
    obtain ⟨l₂, hl₂, hc⟩ := hadjF x [] (by rw [hfindA, if_pos hx])
    rw [hl₂]
    simp only [Option.getD_some]
    rw [hc y]
    simp only [List.count_nil, Nat.zero_add]
    by_cases hy : y ∈ tasks.map Task.name
    · rw [if_pos hy]
      obtain ⟨ty, hty, rfl⟩ := List.mem_map.mp hy
      unfold adjContrib
      rw [hfilter ty hty]
      simp [depGraph_of_nodup hnd hty]
    · rw [if_neg hy]
      unfold adjContrib
      have hnil : tasks.filter (fun s => s.name == y) = [] := by
        rw [List.filter_eq_nil_iff]
        intro s hs
        simp only [beq_iff_eq]
        exact fun he => hy (he ▸ List.mem_map_of_mem Task.name hs)
      rw [hnil]
      simp
  have hq₀eq : indeg.filterMap (fun p => if p.2 = 0 then some p.1 else none) =
      (indeg.filter (fun p => decide (p.2 = 0))).map Prod.fst :=
    filterMap_if_zero indeg
  have hq₀sl : (indeg.filterMap (fun p => if p.2 = 0 then some p.1 else none)).Sublist
      (tasks.map Task.name) := by
    rw [hq₀eq, ← hkeysI]
    exact (List.filter_sublist indeg).map Prod.fst
  have hq₀nodup := hq₀sl.nodup hnd
  have hq₀subm : ∀ x ∈ indeg.filterMap (fun p => if p.2 = 0 then some p.1 else none),
      x ∈ tasks.map Task.name := fun x hx => hq₀sl.subset hx
  have hikeysnd : (indeg.map Prod.fst).Nodup := by
    rw [hkeysI]
    exact hnd
  have hq₀char : ∀ x ∈ tasks.map Task.name,
      (x ∈ indeg.filterMap (fun p => if p.2 = 0 then some p.1 else none) ↔
        x ∉ ([] : List String) ∧ unprocDeps tasks x [] = 0) := by
    intro x hx
    simp only [List.not_mem_nil, not_false_iff, true_and]
    constructor
    · intro hmem
      rw [hq₀eq] at hmem
      obtain ⟨⟨k, v⟩, hkv, hfst⟩ := List.mem_map.mp hmem
      simp only at hfst
      subst hfst
      have hkv₂ := List.mem_filter.mp hkv
      have hfind := AList.find_of_mem_nodup hikeysnd hkv₂.1
      rw [hdegN k hx] at hfind
      have hv := Option.some.inj hfind
      have hz : v = 0 := by simpa using hkv₂.2
      omega
    · intro hu
      have hxk : x ∈ indeg.map Prod.fst := by
        rw [hkeysI]
        exact hx
      obtain ⟨⟨k, v⟩, hkv, hfst⟩ := List.mem_map.mp hxk
      simp only at hfst
      subst hfst
      have hfind := AList.find_of_mem_nodup hikeysnd hkv
      rw [hdegN k hx] at hfind
      have hv := Option.some.inj hfind
      have hz : v = 0 := by omega
      rw [hq₀eq]
      exact List.mem_map.mpr ⟨(k, v), List.mem_filter.mpr ⟨hkv, by simp [hz]⟩, rfl⟩
  have hnodup₀ : (([] : List String) ++
      indeg.filterMap (fun p => if p.2 = 0 then some p.1 else none)).Nodup := by
    simpa using hq₀nodup
  have hsubO₀ : ∀ x ∈ ([] : List String), x ∈ tasks.map Task.name := by simp
  have htopo₀ : ∀ (i : ℕ) (h : i < ([] : List String).length),
      ∀ d ∈ depGraph tasks (([] : List String).get ⟨i, h⟩),
        d ∈ ([] : List String).take i := by
    intro i h
    simp at h
  have hfuel₀ : tasks.length + 1 - ([] : List String).length ≤
      2 * tasks.length + 1 := by
    simp
    omega
  have hspec :=
    kahnLoop_spec tasks hnd hclosed hnocycle adj hadjN (2 * tasks.length + 1)
      indeg (indeg.filterMap (fun p => if p.2 = 0 then some p.1 else none)) []
      hkeysI hdegN hnodup₀ hsubO₀ hq₀subm hq₀char htopo₀ hfuel₀
  obtain ⟨hperm, htopo⟩ := hspec
  have hall :=
    orderedNames_to_tasks hnd
      (kahnLoop adj (2 * tasks.length + 1) indeg
        (indeg.filterMap (fun p => if p.2 = 0 then some p.1 else none)) [])
      hperm htopo
  refine ⟨_, ?_, hall.2.1, hall.2.2⟩
  unfold get_task_execution_order
  rw [hok]
  dsimp only
  rw [if_pos hall.1]

/-- A task action that leaves outputs and state untouched and emits
nothing, used by the concrete examples. -/
def trivialAction : TaskAction := fun _ outputs state _ _ => ⟨outputs, state, [], none⟩

def taskA : Task := { name := "A", depends_on := [], action := trivialAction }

def taskB : Task := { name := "B", depends_on := [], action := trivialAction }

def taskC : Task := { name := "C", depends_on := ["B"], action := trivialAction }

def taskD : Task := { name := "D", depends_on := ["A"], action := trivialAction }

def taskE : Task := { name := "E", depends_on := [], action := trivialAction }

/-- C4 counterexample to stability with respect to declared order among
nodes of equal in-degree: tasks A, B, C, D declared in that order, C
depending on B and D depending on A.  C and D have equal in-degree 1 and C
is declared before D, yet Kahn ordering returns A, B, D, C with D before
C: after popping A it enqueues D, and only after popping B does it enqueue
C.  (The name-level sublist statement is used because task equality is not
decidable; C before D among the tasks would imply C's name before D's name
here.) -/
theorem c4_stability_counterexample :
    ∃ ordered,
      get_task_execution_order [taskA, taskB, taskC, taskD] = .ok ordered ∧
      taskC.depends_on.length = taskD.depends_on.length ∧
      [taskC.name, taskD.name].Sublist
        ([taskA, taskB, taskC, taskD].map Task.name) ∧
      ¬ [taskC.name, taskD.name].Sublist (ordered.map Task.name) := by
  refine ⟨[taskA, taskB, taskD, taskC], rfl, rfl, ?_, ?_⟩
  · decide
  · decide

/-- Witness for the amended C4 on the concrete one-task component E. -/
theorem c4_execution_order_witness :
    ∃ ordered, get_task_execution_order [taskE] = .ok ordered ∧
      ordered.Perm [taskE] ∧
      (∀ (i : ℕ) (h : i < ordered.length),
        ∀ d ∈ (ordered.get ⟨i, h⟩).depends_on,
          d ∈ (ordered.take i).map Task.name) := by
  apply c4_execution_order_topological_perm
  · decide
  · decide
  · rintro ⟨n, p, hchain⟩
    have hdg : ∀ m, depGraph [taskE] m = [] := by
      intro m
      unfold depGraph graphFind
      cases hfind : List.find? (fun t => t.name == m) [taskE].reverse with
      | none => simp [hfind]
      | some t =>
        have hmem := List.mem_of_find?_eq_some hfind
        simp at hmem
        subst hmem
        simp [hfind, taskE]
    cases hp : p ++ [n] with
    | nil => exact absurd hp (by simp)
    | cons b l =>
      rw [hp] at hchain
      have hedge := (List.chain_cons.mp hchain).1
      rw [hdg n] at hedge
      simp at hedge

/-! ### DFS cycle-detection soundness (for C7) -/

/-- A node is black when it is visited and no longer on the recursion
stack (fully explored). -/
def blackP (st : DfsState) (x : String) : Prop :=
  x ∈ st.visited ∧ x ∉ st.rec_stack

/-- The invariant maintained by every cycle-free dfs run: the recursion
stack only holds visited nodes, and no dependency cycle starts at a
black node. -/
def DfsInv (tasks : List Task) (st : DfsState) : Prop :=
  (∀ x ∈ st.rec_stack, x ∈ st.visited) ∧
  (∀ n p, List.Chain (fun a b => b ∈ depGraph tasks a) n (p ++ [n]) →
    ¬ blackP st n)

theorem chain_snoc {R : String → String → Prop} :
    ∀ (l : List String) (a b c : String),
      List.Chain R a (l ++ [b]) → R b c → List.Chain R a (l ++ [b, c]) := by
  intro l
  induction l with
  | nil =>
    intro a b c hch hbc
    rcases List.chain_cons.mp hch with ⟨hab, _⟩
    exact List.Chain.cons hab (List.Chain.cons hbc List.Chain.nil)
  | cons d l ih =>
    intro a b c hch hbc
    rcases List.chain_cons.mp hch with ⟨had, hch₂⟩
    exact List.Chain.cons had (ih d b c hch₂ hbc)

theorem dfsScan_spec (tasks : List Task) (fuel : ℕ)
    (hP : ∀ (node : String) (st : DfsState), node ∉ st.visited →
      DfsInv tasks st → (dfs tasks fuel node st).1 = false →
      DfsInv tasks (dfs tasks fuel node st).2 ∧
      (∀ x ∈ st.visited, x ∈ (dfs tasks fuel node st).2.visited) ∧
      node ∈ (dfs tasks fuel node st).2.visited ∧
      (dfs tasks fuel node st).2.rec_stack = st.rec_stack ∧
      (∀ x, blackP st x → blackP (dfs tasks fuel node st).2 x) ∧
      blackP (dfs tasks fuel node st).2 node) :
    ∀ (nbs : List String) (st : DfsState), DfsInv tasks st →
      (dfsScan tasks fuel nbs st).1 = false →
      DfsInv tasks (dfsScan tasks fuel nbs st).2 ∧
      (∀ x ∈ st.visited, x ∈ (dfsScan tasks fuel nbs st).2.visited) ∧
      (dfsScan tasks fuel nbs st).2.rec_stack = st.rec_stack ∧
      (∀ x, blackP st x → blackP (dfsScan tasks fuel nbs st).2 x) ∧
      (∀ v ∈ nbs, blackP (dfsScan tasks fuel nbs st).2 v) := by
  intro nbs
  induction nbs with
  | nil =>
    intro st hinv _
    have hres : dfsScan tasks fuel [] st = (false, st) := by
      simp only [dfsScan]
    rw [hres]
    refine ⟨hinv, fun x h => h, rfl, fun x h => h, ?_⟩
    intro v hv
    simp at hv
  | cons nb nbs ih =>
    intro st hinv hfalse
    by_cases hv : nb ∈ st.visited
    · by_cases hr : nb ∈ st.rec_stack
      · have hres : dfsScan tasks fuel (nb :: nbs) st = (true, st) := by
          simp only [dfsScan, if_pos hv, if_pos hr]
        rw [hres] at hfalse
        simp at hfalse
      · have hres : dfsScan tasks fuel (nb :: nbs) st = dfsScan tasks fuel nbs st := by
          simp only [dfsScan, if_pos hv, if_neg hr]
        rw [hres] at hfalse ⊢
        obtain ⟨i1, i2, i3, i4, i5⟩ := ih st hinv hfalse
        refine ⟨i1, i2, i3, i4, ?_⟩
        intro v hvm
        rcases List.mem_cons.mp hvm with rfl | hvm₂
        · exact i4 v ⟨hv, hr⟩
        · exact i5 v hvm₂
    · cases hdfs : dfs tasks fuel nb st with
      | mk b st₂ =>
        cases b with
        | true =>
          have hres : dfsScan tasks fuel (nb :: nbs) st = (true, st₂) := by
            simp only [dfsScan, if_neg hv, hdfs]
          rw [hres] at hfalse
          simp at hfalse
        | false =>
          have hres : dfsScan tasks fuel (nb :: nbs) st = dfsScan tasks fuel nbs st₂ := by
            simp only [dfsScan, if_neg hv, hdfs]
          rw [hres] at hfalse ⊢
          have hspec := hP nb st hv hinv (by rw [hdfs])
          rw [hdfs] at hspec
          obtain ⟨d1, d2, d3, d4, d5, d6⟩ := hspec
          obtain ⟨i1, i2, i3, i4, i5⟩ := ih st₂ d1 hfalse
          refine ⟨i1, fun x h => i2 x (d2 x h), by rw [i3, d4],
            fun x h => i4 x (d5 x h), ?_⟩
          intro v hvm
          rcases List.mem_cons.mp hvm with rfl | hvm₂
          · exact i4 v d6
          · exact i5 v hvm₂

theorem dfs_spec (tasks : List Task) :
    ∀ (fuel : ℕ) (node : String) (st : DfsState), node ∉ st.visited →
      DfsInv tasks st → (dfs tasks fuel node st).1 = false →
      DfsInv tasks (dfs tasks fuel node st).2 ∧
      (∀ x ∈ st.visited, x ∈ (dfs tasks fuel node st).2.visited) ∧
      node ∈ (dfs tasks fuel node st).2.visited ∧
      (dfs tasks fuel node st).2.rec_stack = st.rec_stack ∧
      (∀ x, blackP st x → blackP (dfs tasks fuel node st).2 x) ∧
      blackP (dfs tasks fuel node st).2 node := by
  intro fuel
  induction fuel with
  | zero =>
    intro node st _ _ hfalse
    simp [dfs] at hfalse
  | succ fuel ih =>
    intro node st hnv hinv hfalse
    have hinv₁ : DfsInv tasks ⟨node :: st.visited, node :: st.rec_stack⟩ := by
      constructor
      · intro x hx
        rcases List.mem_cons.mp hx with rfl | hx₂
        · exact List.mem_cons_self _ _
        · exact List.mem_cons_of_mem _ (hinv.1 x hx₂)
      · intro n p hchain hb
        apply hinv.2 n p hchain
        obtain ⟨hbv, hbr⟩ := hb
        have hne : n ≠ node := by
          rintro rfl
          exact hbr (List.mem_cons_self _ _)
        constructor
        · rcases List.mem_cons.mp hbv with h | h
          · exact absurd h hne
          · exact h
        · intro hmem
          exact hbr (List.mem_cons_of_mem _ hmem)
    cases hscan : dfsScan tasks fuel (depGraph tasks node)
        ⟨node :: st.visited, node :: st.rec_stack⟩ with
    | mk b st₂ =>
      cases b with
      | true =>
        have hred : (dfs tasks (fuel + 1) node st).1 = true := by
          simp only [dfs, hscan]
        rw [hred] at hfalse
        simp at hfalse
      | false =>
        have hres : dfs tasks (fuel + 1) node st =
            (false, { st₂ with rec_stack := st₂.rec_stack.erase node }) := by
          simp only [dfs, hscan]
        rw [hres]
        have hss := dfsScan_spec tasks fuel ih (depGraph tasks node)
          ⟨node :: st.visited, node :: st.rec_stack⟩ hinv₁ (by rw [hscan])
        rw [hscan] at hss
        obtain ⟨s1, s2, s3, s4, s5⟩ := hss
        have herase : st₂.rec_stack.erase node = st.rec_stack := by
          rw [s3]
          exact List.erase_cons_head node st.rec_stack
        have hnodenr : node ∉ st.rec_stack := fun hmem => hnv (hinv.1 node hmem)
        have hnodev₂ : node ∈ st₂.visited := s2 node (List.mem_cons_self _ _)
        have hblack₃ : ∀ x, blackP st₂ x → x ≠ node →
            blackP ⟨st₂.visited, st₂.rec_stack.erase node⟩ x := by
          intro x hb hne
          refine ⟨hb.1, ?_⟩
          intro hmem
          exact hb.2 (List.mem_of_mem_erase hmem)
        refine ⟨?_, ?_, ?_, ?_, ?_, ?_⟩
        · constructor
          · intro x hx
            simp only at hx ⊢
            rw [herase] at hx
            have := hinv.1 x hx
            exact s2 x (List.mem_cons_of_mem _ this)
          · intro n p hchain hb
            simp only at hb
            rw [herase] at hb
            obtain ⟨hbv, hbr⟩ := hb
            by_cases hne : n = node
            · subst hne
              cases p with
              | nil =>
                have hedge : n ∈ depGraph tasks n := by simpa using hchain
                have hmem := (s5 n hedge).2
                rw [s3] at hmem
                exact hmem (List.mem_cons_self _ _)
              | cons v rest =>
                rcases List.chain_cons.mp hchain with ⟨hedge, hch₂⟩
                have hvb : blackP st₂ v := s5 v hedge
                have hsn := chain_snoc rest v n v hch₂ hedge
                have hrot : List.Chain (fun a b => b ∈ depGraph tasks a) v
                    ((rest ++ [n]) ++ [v]) := by
                  simpa [List.append_assoc] using hsn
                exact s1.2 v (rest ++ [n]) hrot hvb
            · have hb₂ : blackP st₂ n := by
                refine ⟨hbv, ?_⟩
                rw [s3]
                intro hmem
                rcases List.mem_cons.mp hmem with h | h
                · exact hne h
                · exact hbr h
              exact s1.2 n p hchain hb₂
        · intro x hx
          exact s2 x (List.mem_cons_of_mem _ hx)
        · exact hnodev₂
        · simp only
          exact herase
        · intro x hb
          have hb₁ : blackP ⟨node :: st.visited, node :: st.rec_stack⟩ x := by
            have hne : x ≠ node := by
              rintro rfl
              exact hnv hb.1
            refine ⟨List.mem_cons_of_mem _ hb.1, ?_⟩
            intro hmem
            rcases List.mem_cons.mp hmem with h | h
            · exact hne h
            · exact hb.2 h
          have hb₂ := s4 x hb₁
          refine ⟨hb₂.1, ?_⟩
          simp only
          rw [herase]
          exact hb.2
        · refine ⟨hnodev₂, ?_⟩
          simp only
          rw [herase]
          exact hnodenr

theorem hasCircLoop_spec (tasks : List Task) :
    ∀ (ks : List String) (st : DfsState), DfsInv tasks st →
      hasCircLoop tasks ks st = false →
      ∃ st', DfsInv tasks st' ∧ st'.rec_stack = st.rec_stack ∧
        (∀ k ∈ ks, k ∈ st'.visited) ∧ (∀ x ∈ st.visited, x ∈ st'.visited) := by
  intro ks
  induction ks with
  | nil =>
    intro st hinv _
    exact ⟨st, hinv, rfl, by simp, fun x h => h⟩
  | cons k ks ih =>
    intro st hinv hfalse
    by_cases hv : k ∈ st.visited
    · have hres : hasCircLoop tasks (k :: ks) st = hasCircLoop tasks ks st := by
        simp only [hasCircLoop, if_pos hv]
      rw [hres] at hfalse
      obtain ⟨st', i1, i2, i3, i4⟩ := ih st hinv hfalse
      refine ⟨st', i1, i2, ?_, i4⟩
      intro x hx
      rcases List.mem_cons.mp hx with rfl | hx₂
      · exact i4 x hv
      · exact i3 x hx₂
    · cases hdfs : dfs tasks (tasks.length + 1) k st with
      | mk b st₂ =>
        cases b with
        | true =>
          have hres : hasCircLoop tasks (k :: ks) st = true := by
            simp only [hasCircLoop, if_neg hv, hdfs]
          rw [hres] at hfalse
          simp at hfalse
        | false =>
          have hres : hasCircLoop tasks (k :: ks) st = hasCircLoop tasks ks st₂ := by
            simp only [hasCircLoop, if_neg hv, hdfs]
          rw [hres] at hfalse
          have hspec := dfs_spec tasks (tasks.length + 1) k st hv hinv (by rw [hdfs])
          rw [hdfs] at hspec
          obtain ⟨d1, d2, d3, d4, _, _⟩ := hspec
          obtain ⟨st', i1, i2, i3, i4⟩ := ih st₂ d1 hfalse
          refine ⟨st', i1, by rw [i2, d4], ?_, ?_⟩
          · intro x hx
            rcases List.mem_cons.mp hx with rfl | hx₂
            · exact i4 x d3
            · exact i3 x hx₂
          · intro x hx
            exact i4 x (d2 x hx)

theorem mem_dedupKeepFirst :
    ∀ (l seen : List String) (x : String),
      x ∈ dedupKeepFirst seen l ↔ x ∈ l ∧ x ∉ seen := by
  intro l
  induction l with
  | nil => simp [dedupKeepFirst]
  | cons a l ih =>
    intro seen x
    by_cases ha : a ∈ seen
    · rw [dedupKeepFirst, if_pos ha, ih]
      constructor
      · rintro ⟨hx, hs⟩
        exact ⟨List.mem_cons_of_mem _ hx, hs⟩
      · rintro ⟨hx, hs⟩
        rcases List.mem_cons.mp hx with rfl | hx₂
        · exact absurd ha hs
        · exact ⟨hx₂, hs⟩
    · rw [dedupKeepFirst, if_neg ha]
      constructor
      · intro hx
        rcases List.mem_cons.mp hx with rfl | hx₂
        · exact ⟨List.mem_cons_self _ _, ha⟩
        · obtain ⟨h₁, h₂⟩ := (ih (a :: seen) x).mp hx₂
          refine ⟨List.mem_cons_of_mem _ h₁, ?_⟩
          intro hmem
          exact h₂ (List.mem_cons_of_mem _ hmem)
      · rintro ⟨hx, hs⟩
        rcases List.mem_cons.mp hx with rfl | hx₂
        · exact List.mem_cons_self _ _
        · by_cases hxa : x = a
          · subst hxa
            exact List.mem_cons_self _ _
          · refine List.mem_cons_of_mem _ ((ih (a :: seen) x).mpr ⟨hx₂, ?_⟩)
            intro hmem
            rcases List.mem_cons.mp hmem with h | h
            · exact hxa h
            · exact hs h

/-- A node with an outgoing dependency edge is a key of the task graph. -/
theorem mem_graphKeys_of_depGraph_ne_nil {tasks : List Task} {n : String}
    (h : depGraph tasks n ≠ []) : n ∈ graphKeys tasks := by
  unfold depGraph at h
  cases hgf : graphFind tasks n with
  | none => rw [hgf] at h; simp at h
  | some t =>
    obtain ⟨ht, htn⟩ := graphFind_some hgf
    rw [graphKeys, mem_dedupKeepFirst]
    exact ⟨htn ▸ List.mem_map_of_mem Task.name ht, by simp⟩

/-- Soundness of the cycle check: if _has_circular_dependencies reports
false, the dependency graph has no cycle. -/
theorem not_hasCycle_of_circ_false {tasks : List Task}
    (h : has_circular_dependencies tasks = false) : ¬ HasCycle tasks := by
  rintro ⟨n, p, hchain⟩
  unfold has_circular_dependencies at h
  have hinv₀ : DfsInv tasks ⟨[], []⟩ := by
    constructor
    · intro x hx
      simp at hx
    · intro m q _ hb
      exact absurd hb.1 (by simp)
  obtain ⟨st', hinv', hrec', hkeys', _⟩ :=
    hasCircLoop_spec tasks (graphKeys tasks) ⟨[], []⟩ hinv₀ h
  have hout : depGraph tasks n ≠ [] := by
    have hfirst : ∃ v, v ∈ depGraph tasks n := by
      cases p with
      | nil => exact ⟨n, by simpa using hchain⟩
      | cons b l => exact ⟨b, (List.chain_cons.mp hchain).1⟩
    obtain ⟨v, hv⟩ := hfirst
    intro hnil
    rw [hnil] at hv
    simp at hv
  have hnk : n ∈ graphKeys tasks := mem_graphKeys_of_depGraph_ne_nil hout
  have hb : blackP st' n := ⟨hkeys' n hnk, by rw [hrec']; simp⟩
  exact hinv'.2 n p hchain hb

theorem findUnknownDep_none {task_names : List String} :
    ∀ {tasks : List Task}, findUnknownDep task_names tasks = none →
      ∀ t ∈ tasks, ∀ d ∈ t.depends_on, d ∈ task_names := by
  intro tasks
  induction tasks with
  | nil => simp
  | cons t ts ih =>
    intro hnone s hs d hd
    unfold findUnknownDep at hnone
    cases hfind : t.depends_on.find? (fun d => !task_names.contains d) with
    | some d₂ => rw [hfind] at hnone; simp at hnone
    | none =>
      rw [hfind] at hnone
      rcases List.mem_cons.mp hs with rfl | hs₂
      · have := List.find?_eq_none.mp hfind d hd
        simpa using this
      · exact ih hnone s hs₂ d hd

/-- C7: Component construction raises ComponentError when some task's
depends_on names a task not present among the component's tasks, or when
the dependency graph contains a cycle.  The model of the constructor runs
only validation (and current_outputs initialisation); no task action is
invoked anywhere, so the error is raised during construction before any
task runs. -/
theorem c7_construction_rejects_bad_graphs (name : String) (state : Smap)
    (inputs outputs : List String) (tasks : List Task)
    (h : (∃ t ∈ tasks, ∃ d ∈ t.depends_on, d ∉ tasks.map Task.name) ∨
      HasCycle tasks) :
    ∃ msg, mkComponent name state inputs outputs tasks = .error msg := by
  unfold mkComponent
  cases hfind : findUnknownDep (tasks.map Task.name) tasks with
  | some pr =>
    obtain ⟨tn, d⟩ := pr
    exact ⟨_, rfl⟩
  | none =>
    have hclosed := findUnknownDep_none hfind
    rcases h with ⟨t, ht, d, hd, hdn⟩ | hcycle
    · exact absurd (by simpa using hclosed t ht d hd) hdn
    · have hcirc : has_circular_dependencies tasks = true := by
        by_contra hfalse
        rw [Bool.not_eq_true] at hfalse
        exact not_hasCycle_of_circ_false hfalse hcycle
      rw [hcirc]
      exact ⟨_, rfl⟩

/-- Witness for C7: a component whose only task names an unknown
dependency is rejected at construction. -/
theorem c7_construction_rejects_witness :
    ∃ msg, mkComponent "comp" [] [] [] [taskC] = .error msg :=
  c7_construction_rejects_bad_graphs "comp" [] [] [] [taskC]
    (Or.inl ⟨taskC, by simp, "B", by simp [taskC], by decide⟩)

/-! ## Event-driven executor (event_executor.py) -/

/-- The executor object: the wrapped AsynchronousComponent's mutable parts
(tasks with their trigger latches, state, current_outputs), the
configuration, and the queue / clock / log / counters.  The two locks
protect the snapshot and merge critical sections of _execute_task; in this
model each such critical section is one atomic step. -/
structure EventDrivenExecutor where
  tasks : List Task
  state : Smap
  inputs : List String
  current_outputs : Smap
  input_generator : Option (List String → ℕ → Smap → Except String Smap)
  termination_condition : TerminationCondition
  input_event_name : String
  input_interval : Option ℚ
  initial_inputs : Smap
  event_queue : EventQueue
  sim_time : SimulationTime
  log : ExecutionLog
  event_count : ℕ
  input_round : ℕ

/-- _schedule_periodic_tasks: one synthetic periodic event at time 0 per
task carrying a PeriodicTrigger. -/
def schedule_periodic_tasks (ex : EventDrivenExecutor) : EventDrivenExecutor :=
  { ex with event_queue := ex.tasks.foldl (fun q task =>
      match task.trigger with
      | some (Trigger.periodic _ _) =>
        q.push { time := 0, name := "periodic_" ++ task.name,
                 data := [("task", Value.vStr task.name)] }
      | _ => q) ex.event_queue }

/-- _schedule_input_generation: only when both a generator and an input
interval are configured. -/
def schedule_input_generation (ex : EventDrivenExecutor) : EventDrivenExecutor :=
  match ex.input_generator, ex.input_interval with
  | some _, some _ =>
    let q := ex.event_queue.push
      { time := 0, name := "_generate_input", data := [("round", Value.vInt 1)] }
    { ex with event_queue := q }
  | _, _ => ex

/-- _generate_and_emit_input (the source misspells the error message as
"unputs"). -/
def generate_and_emit_input (ex : EventDrivenExecutor) :
    Except String EventDrivenExecutor :=
  match ex.input_generator with
  | none => .ok ex
  | some gen =>
    let ex₂ := { ex with input_round := ex.input_round + 1 }
    match gen ex₂.inputs ex₂.input_round ex₂.state with
    | .error e => .error ("Error generating unputs: " ++ e)
    | .ok new_inputs =>
      let q := ex₂.event_queue.push
        { time := ex₂.sim_time.current_time, name := ex₂.input_event_name,
          data := new_inputs }
      let q₂ := match ex₂.input_interval with
        | some interval => q.push
            { time := ex₂.sim_time.current_time + interval,
              name := "_generate_input",
              data := [("round", Value.vInt (ex₂.input_round + 1))] }
        | none => q
      .ok { ex₂ with initial_inputs := ex₂.initial_inputs.update new_inputs,
                     event_queue := q₂ }

/-- _execute_task: snapshot inputs / outputs / state under the state lock,
run the compiled action against the private copies, and after a successful
run merge the mutated state copy (under the state lock) and the mutated
outputs copy (under the output lock) into the component; when the action
raises, the merges are skipped and the error is reported (to the error
queue on the parallel path), so nothing the failed action wrote to its
private copies reaches the component.  Each call is modelled as one atomic
snapshot-run-merge step; the interleaving of co-activated tasks is
resolved by the order in which the caller runs these steps. -/
def execute_task (ex : EventDrivenExecutor) (task : Task) (event_data : Smap) :
    EventDrivenExecutor × Except (String × String) (List PendingEvent) :=
  let r := task.action ex.initial_inputs ex.current_outputs ex.state
    ex.sim_time.current_time event_data
  match r.error with
  | none =>
    ({ ex with state := ex.state.update r.state,
               current_outputs := ex.current_outputs.update r.outputs },
     .ok r.pending_events)
  | some e => (ex, .error (task.name, e))

/-- _schedule_pending_events: stamp each emitted event with current_time
plus its delay and the emitting task as source. -/
def schedule_pending_events (ex : EventDrivenExecutor)
    (pending : List PendingEvent) (source_task : String) : EventDrivenExecutor :=
  { ex with event_queue := pending.foldl (fun q pe =>
      q.push { time := ex.sim_time.current_time + pe.delay, name := pe.name,
               data := pe.data, priority := pe.priority,
               source_task := some source_task }) ex.event_queue }

/-- The guard gate of _get_activated_tasks: evaluated only when the
trigger fired and the task carries a condition; an evaluation error is
swallowed and the task is simply not activated. -/
def guard_gate (task : Task) (state : Smap) (time : ℚ) (should_run₀ : Bool) : Bool :=
  if should_run₀ then
    match task.condition with
    | none => true
    | some guard =>
      match guard state time with
      | .ok v => v.truthy
      | .error _ => false
  else false

/-- The per-task trigger dispatch of _get_activated_tasks: a task without
a trigger attribute never fires; otherwise should_activate decides and
latches the trigger in place. -/
def activStep (task : Task) (event_name : String) (state : Smap) (time : ℚ) :
    Bool × Task :=
  match task.trigger with
  | none => (false, task)
  | some tr =>
    let r := tr.should_activate event_name state time
    (r.1, { task with trigger := some r.2 })

/-- _get_activated_tasks: scan the tasks in declared order; ask the
trigger (a task without one never activates), re-arm a firing
PeriodicTrigger by pushing its next periodic event before execution, then
apply the guard gate.  Returns the task list with latched triggers, the
activated tasks in declared order, and the queue with the re-arm events. -/
def get_activated_tasks (state : Smap) (time : ℚ) (event_name : String) :
    List Task → EventQueue → List Task × List Task × EventQueue
  | [], q => ([], [], q)
  | task :: ts, q =>
    let step := activStep task event_name state time
    let q₂ :=
      match step.2.trigger with
      | some tr₂ =>
        if tr₂.isPeriodic && step.1 then
          match tr₂.get_next_time with
          | some next_time =>
            q.push { time := next_time, name := "periodic_" ++ task.name,
                     data := [("task", Value.vStr task.name)] }
          | none => q
        else q
      | none => q
    let keep := guard_gate task state time step.1
    let rest := get_activated_tasks state time event_name ts q₂
    (step.2 :: rest.1, (if keep then [step.2] else []) ++ rest.2.1, rest.2.2)

/-- One thread-pool round: run each task's atomic snapshot-run-merge step
in the given completion order, collecting errors and emitted events in
that order (the queue.Queue and all_pending_events of the source). -/
def processTasksInOrder (event_data : Smap) :
    List Task → EventDrivenExecutor →
      EventDrivenExecutor × List (String × String) × List (String × List PendingEvent)
  | [], ex => (ex, [], [])
  | task :: ts, ex =>
    match execute_task ex task event_data with
    | (ex₂, .ok pes) =>
      let rest := processTasksInOrder event_data ts ex₂
      (rest.1, rest.2.1, (task.name, pes) :: rest.2.2)
    | (ex₂, .error err) =>
      let rest := processTasksInOrder event_data ts ex₂
      (rest.1, err :: rest.2.1, rest.2.2)

/-- _execute_tasks_parallel: no-op on an empty set; a single task runs
inline on the scheduler thread, raising TaskError directly on failure;
two or more tasks run on the pool in the completion order chosen by
as_completed (the order argument), and after the join the first collected
error is raised as a TaskError naming its task, otherwise every pending
emitted event is scheduled. -/
def execute_tasks_parallel (ex : EventDrivenExecutor) (activated : List Task)
    (event : Event) (order : List Task) :
    EventDrivenExecutor × Option (String × String) :=
  match activated with
  | [] => (ex, none)
  | [task] =>
    match execute_task ex task event.data with
    | (ex₂, .ok pes) => (schedule_pending_events ex₂ pes task.name, none)
    | (ex₂, .error err) =>
      (ex₂, some (err.1, "Error executing task " ++ err.1 ++ ": " ++ err.2))
  | _ :: _ :: _ =>
    let r := processTasksInOrder event.data order ex
    match r.2.1 with
    | err :: _ => (r.1, some (err.1, "Error in task " ++ err.1 ++ ": " ++ err.2))
    | [] =>
      (r.2.2.foldl (fun ex pr => schedule_pending_events ex pr.2 pr.1) r.1, none)

/-- Errors that abort a run (Python exceptions propagating out of run).
generatorError stands for an exception of the input generator escaping the
synchronous loop unwrapped. -/
inductive RunError where
  | taskError (task_name : String) (msg : String)
  | componentError (msg : String)
  | valueError (msg : String)
  | terminationError (msg : String)
  | generatorError (msg : String)
deriving DecidableEq

inductive RunOutcome where
  | finished
  | errored (e : RunError)
  | fuelOut
deriving DecidableEq

def should_terminate_exec (ex : EventDrivenExecutor) : Except String Bool :=
  ex.termination_condition.should_terminate ex.event_count ex.state ex.log
    (some ex.sim_time.current_time) (some ex.event_count) (some ex.event_queue)

/-- One iteration of the while loop of EventDrivenExecutor.run: check
termination, pop the next event (None breaks the loop), advance the
clock, bump the event counter, dispatch either input generation or task
selection followed by task execution, then append one RoundRecord with
the event, snapshots and the activated task order.  Sum.inl is the loop
ending (normally or by a raised error aborting it with the component
state as already mutated), Sum.inr the state carried into the next
iteration.  sched chooses, per event number, the completion order of the
co-activated tasks (the thread pool's as_completed order, unspecified by
the source). -/
def runStep (sched : ℕ → List Task → List Task) (ex : EventDrivenExecutor) :
    (EventDrivenExecutor × RunOutcome) ⊕ EventDrivenExecutor :=
  match should_terminate_exec ex with
  | .error e => .inl (ex, .errored (.terminationError e))
  | .ok true => .inl (ex, .finished)
  | .ok false =>
    match ex.event_queue.pop with
    | (none, _) => .inl (ex, .finished)
    | (some event, q₂) =>
      match ex.sim_time.advance_to event.time with
      | .error e => .inl ({ ex with event_queue := q₂ }, .errored (.valueError e))
      | .ok st₂ =>
        let ex₂ : EventDrivenExecutor :=
          { ex with
            event_queue := q₂
            sim_time := st₂
            event_count := ex.event_count + 1 }
        if event.name = "_generate_input" then
          match generate_and_emit_input ex₂ with
          | .error e => .inl (ex₂, .errored (.componentError e))
          | .ok ex₃ => .inr ex₃
        else
          let sel := get_activated_tasks ex₂.state ex₂.sim_time.current_time
            event.name ex₂.tasks ex₂.event_queue
          let ex₃ := { ex₂ with tasks := sel.1, event_queue := sel.2.2 }
          match execute_tasks_parallel ex₃ sel.2.1 event
              (sched ex₃.event_count sel.2.1) with
          | (ex₄, some err) => .inl (ex₄, .errored (.taskError err.1 err.2))
          | (ex₄, none) =>
            let round_inputs := Smap.update
              [("event", Value.vStr event.name), ("time", Value.vRat event.time)]
              ex₄.initial_inputs
            let order := if sel.2.1.isEmpty then none
              else some (sel.2.1.map Task.name)
            let log₂ := ex₄.log.add_round ex₄.event_count round_inputs
              ex₄.current_outputs ex₄.state order
            .inr { ex₄ with log := log₂ }

/-- The while loop: iterate runStep. -/
def runLoop (sched : ℕ → List Task → List Task) :
    ℕ → EventDrivenExecutor → EventDrivenExecutor × RunOutcome
  | 0, ex => (ex, .fuelOut)
  | fuel + 1, ex =>
    match runStep sched ex with
    | .inl done => done
    | .inr next => runLoop sched fuel next

/-- EventDrivenExecutor.run: schedule the periodic and input-generation
seed events, push a start event if the queue is still empty, then enter
the loop. -/
def EventDrivenExecutor.run (sched : ℕ → List Task → List Task) (fuel : ℕ)
    (ex : EventDrivenExecutor) : EventDrivenExecutor × RunOutcome :=
  let ex₂ := schedule_input_generation (schedule_periodic_tasks ex)
  let ex₃ := if ex₂.event_queue.is_empty then
      { ex₂ with event_queue := ex₂.event_queue.push { time := 0, name := "start" } }
    else ex₂
  runLoop sched fuel ex₃

/-! ## Synchronous executor (executor.py, component.py, task.py) -/

/-- Task.execute on the synchronous path: the TaskContext shares the
component's current_outputs and state dicts, so everything the action
wrote up to a raise persists; a raise is wrapped as a TaskError.  The
synchronous namespace carries no emit_event / current_time / event_data,
so the action is applied at time 0 with empty event data and its emitted
events have nowhere to go. -/
def Task.execute (task : Task) (inputs outputs state : Smap) :
    Smap × Smap × Option String :=
  let r := task.action inputs outputs state 0 []
  (r.outputs, r.state,
   r.error.map (fun e => "Error executing task " ++ task.name ++ ": " ++ e))

/-- The task loop of SynchronousComponent.execute_round: run the ordered
tasks against the shared dicts, stopping at the first raise with the
mutations made so far kept. -/
def runTasks (inputs : Smap) :
    List Task → Smap → Smap → Smap × Smap × Option String
  | [], outputs, state => (outputs, state, none)
  | t :: ts, outputs, state =>
    match Task.execute t inputs outputs state with
    | (outputs₂, state₂, some e) => (outputs₂, state₂, some e)
    | (outputs₂, state₂, none) => runTasks inputs ts outputs₂ state₂

/-- SynchronousComponent.execute_round: check every declared input port is
present (the first missing one raises), order the tasks, execute them
against the shared context, and return a snapshot of current_outputs.  A
raise propagates with the component left as already mutated by the tasks
that ran before it. -/
def Component.execute_round (c : Component) (input_values : Smap) :
    Component × Except String Smap :=
  match c.inputs.find? (fun n => !input_values.hasKey n) with
  | some n =>
    (c, .error ("Missing required input " ++ n ++ " for component " ++ c.name))
  | none =>
    match get_task_execution_order c.tasks with
    | .error e => (c, .error e)
    | .ok ordered =>
      let r := runTasks input_values ordered c.current_outputs c.state
      let c₂ := { c with current_outputs := r.1, state := r.2.1 }
      match r.2.2 with
      | some e => (c₂, .error e)
      | none => (c₂, .ok r.1)

/-- The round-based Executor object (executor.py). -/
structure Executor where
  component : Component
  input_generator : List String → ℕ → Smap → Except String Smap
  termination_condition : TerminationCondition
  track_task_order : Bool
  log : ExecutionLog
  current_round : ℕ

/-- The positional call in Executor.run: no current_time / event_count /
event_queue keyword arguments are supplied. -/
def Executor.should_terminate_sync (ex : Executor) : Except String Bool :=
  ex.termination_condition.should_terminate ex.current_round
    ex.component.state ex.log none none none

/-- The while loop of Executor.run: check termination, bump the round,
generate the inputs (a raise here propagates unwrapped), optionally fetch
the task order for the log (get_task_execution_order raising unwrapped),
run the round (any raise wrapped as a ComponentError naming the round),
append the round record. -/
def syncLoop : ℕ → Executor → Executor × RunOutcome
  | 0, ex => (ex, .fuelOut)
  | fuel + 1, ex =>
    match ex.should_terminate_sync with
    | .error e => (ex, .errored (.terminationError e))
    | .ok true => (ex, .finished)
    | .ok false =>
      let ex₂ := { ex with current_round := ex.current_round + 1 }
      match ex₂.input_generator ex₂.component.inputs ex₂.current_round
          ex₂.component.state with
      | .error e => (ex₂, .errored (.generatorError e))
      | .ok inputs =>
        match (if ex₂.track_task_order then
            (get_task_execution_order ex₂.component.tasks).map
              (fun l => some (l.map Task.name))
          else .ok none) with
        | .error e => (ex₂, .errored (.componentError e))
        | .ok task_order =>
          match Component.execute_round ex₂.component inputs with
          | (c₂, .error e) =>
            ({ ex₂ with component := c₂ },
             .errored (.componentError
               ("Error in round " ++ toString ex₂.current_round ++ ": " ++ e)))
          | (c₂, .ok outputs) =>
            let log₂ := ex₂.log.add_round ex₂.current_round inputs outputs
              c₂.state task_order
            syncLoop fuel { ex₂ with component := c₂, log := log₂ }

/-- Executor.run: zero the round counter, replace the log with a fresh
empty one, then loop; the component (in particular its state dict) is not
touched. -/
def Executor.run (fuel : ℕ) (ex : Executor) : Executor × RunOutcome :=
  syncLoop fuel { ex with current_round := 0, log := ExecutionLog.empty }

/-! ## Concrete scenarios -/

/-- A task body doing state.ticks += 1 (reading a missing or non-integer
attribute raises). -/
def tickAction : TaskAction := fun _ outputs state _ _ =>
  match Smap.get state "ticks" with
  | some (Value.vInt n) =>
    ⟨outputs, Smap.set state "ticks" (Value.vInt (n + 1)), [], none⟩
  | _ => ⟨outputs, state, [], some "AttributeError: ticks"⟩

def tickTask : Task :=
  { name := "tick", depends_on := [], action := tickAction,
    trigger := some (Trigger.periodic 2 none) }

/-- The executor of the periodic scenario: one PeriodicTrigger(2) task,
MaxTimeCondition(5), nothing else configured. -/
def tickExecutor : EventDrivenExecutor :=
  { tasks := [tickTask], state := [("ticks", Value.vInt 0)], inputs := [],
    current_outputs := [], input_generator := none,
    termination_condition := .maxTime 5, input_event_name := "input_ready",
    input_interval := none, initial_inputs := [],
    event_queue := EventQueue.empty, sim_time := SimulationTime.make 0,
    log := ExecutionLog.empty, event_count := 0, input_round := 0 }

/-- The time stamps of the log records that carry a task_order, i.e. the
rounds in which at least one task fired. -/
def firingTimes (log : ExecutionLog) : List Value :=
  log.rounds.filterMap (fun r =>
    if r.task_order.isSome then Smap.get r.inputs "time" else none)

/-- A task body doing state.ok = True. -/
def okAction : TaskAction := fun _ outputs state _ _ =>
  ⟨outputs, Smap.set state "ok" (Value.vBool true), [], none⟩

/-- A task body that writes to its outputs and state copies and then
raises. -/
def failAction : TaskAction := fun _ outputs state _ _ =>
  ⟨Smap.set outputs "bad" (Value.vBool true),
   Smap.set state "bad" (Value.vBool true), [], some "boom"⟩

def okTask : Task :=
  { name := "A", depends_on := [], action := okAction,
    trigger := some (Trigger.onEvent "start") }

def failTask : Task :=
  { name := "B", depends_on := [], action := failAction,
    trigger := some (Trigger.onEvent "start") }

/-- The executor of the parallel-failure scenario: tasks A and B both
triggered by the start event, default EmptyQueueCondition. -/
def baseExecutor : EventDrivenExecutor :=
  { tasks := [okTask, failTask], state := [], inputs := [],
    current_outputs := [], input_generator := none,
    termination_condition := .emptyQueue, input_event_name := "input_ready",
    input_interval := none, initial_inputs := [],
    event_queue := EventQueue.empty, sim_time := SimulationTime.make 0,
    log := ExecutionLog.empty, event_count := 0, input_round := 0 }

/-- A guard condition that evaluates cleanly to True. -/
def okGuard : Smap → ℚ → Except String Value := fun _ _ => .ok (Value.vBool true)

def guardOkTask : Task :=
  { name := "G", depends_on := [], action := trivialAction,
    trigger := some (Trigger.onEvent "start"), condition := some okGuard }

/-- A task body doing state.n += 1 for the round-based executor. -/
def incAction : TaskAction := fun _ outputs state _ _ =>
  match Smap.get state "n" with
  | some (Value.vInt k) =>
    ⟨outputs, Smap.set state "n" (Value.vInt (k + 1)), [], none⟩
  | _ => ⟨outputs, state, [], some "AttributeError: n"⟩

def incTask : Task := { name := "inc", depends_on := [], action := incAction }

def counterComponent : Component :=
  { name := "counter", state := [("n", Value.vInt 0)], inputs := [],
    outputs := [], tasks := [incTask], current_outputs := [] }

/-- A round-based executor over the counter component, terminating after
one round. -/
def counterExecutor : Executor :=
  { component := counterComponent, input_generator := fun _ _ _ => .ok [],
    termination_condition := .maxRounds 1, track_task_order := false,
    log := ExecutionLog.empty, current_round := 0 }

/-! ## C9: guard evaluation errors are swallowed and exclude the task -/

/-- The trigger dispatch never changes the condition attribute. -/
theorem activStep_condition (task : Task) (event_name : String) (state : Smap)
    (time : ℚ) :
    (activStep task event_name state time).2.condition = task.condition := by
  unfold activStep
  cases task.trigger <;> rfl

/-- A true guard gate means the guard (when present) evaluated without
error to a truthy value. -/
theorem guard_gate_eq_true {task : Task} {state : Smap} {time : ℚ} {b : Bool}
    {g : Smap → ℚ → Except String Value} (hg : task.condition = some g)
    (h : guard_gate task state time b = true) :
    ∃ v, g state time = .ok v ∧ v.truthy = true := by
  unfold guard_gate at h
  split at h
  · simp only [hg] at h
    cases he : g state time with
    | ok v => simp only [he] at h; exact ⟨v, rfl, h⟩
    | error e => simp only [he] at h; simp at h
  · simp at h

/-- C9: every task placed in the activated set by _get_activated_tasks
that carries a guard condition had that guard evaluate without raising to
a truthy value.  Contrapositively, a task whose trigger fires but whose
guard raises is excluded from the activated set; and selection is a total
function of its inputs, so the swallowed evaluation error never
propagates out of task selection. -/
theorem c9_guard_error_excludes_task (state : Smap) (time : ℚ)
    (event_name : String) (tasks : List Task) (q : EventQueue) :
    ∀ t ∈ (get_activated_tasks state time event_name tasks q).2.1,
      ∀ g, t.condition = some g →
        ∃ v, g state time = .ok v ∧ v.truthy = true := by
  induction tasks generalizing q with
  | nil =>
    intro t ht
    simp [get_activated_tasks] at ht
  | cons task ts ih =>
    intro t ht g hg
    simp only [get_activated_tasks, List.mem_append] at ht
    rcases ht with h₁ | h₂
    · split at h₁
      · rename_i hk
        simp only [List.mem_singleton] at h₁
        subst h₁
        rw [activStep_condition] at hg
        exact guard_gate_eq_true hg hk
      · simp at h₁
    · exact ih _ t h₂ g hg

/-- Witness for C9: the cleanly true guard of task G is the guard of an
activated task, so it evaluated to a truthy value. -/
theorem c9_guard_error_witness :
    ∃ v, okGuard [] 0 = .ok v ∧ v.truthy = true :=
  c9_guard_error_excludes_task [] 0 "start" [guardOkTask] EventQueue.empty
    guardOkTask (List.Mem.head _) okGuard rfl

/-! ## C3: a failed task's private mutations never reach the component -/

/-- When the action raises, _execute_task skips both merges and returns
the executor exactly as it was, reporting the task name and error. -/
theorem execute_task_error (ex : EventDrivenExecutor) (task : Task)
    (ed : Smap) (e : String)
    (herr : (task.action ex.initial_inputs ex.current_outputs ex.state
        ex.sim_time.current_time ed).error = some e) :
    execute_task ex task ed = (ex, .error (task.name, e)) := by
  simp only [execute_task, herr]

/-- C3: a task whose action raises contributes nothing to the component.
On the inline single-task path, _execute_task leaves the executor
untouched next to the error; and in a parallel batch run in any
completion order, the executor after the batch (state, current_outputs,
queue, everything) is the same as if the failing task had not been in the
batch at all. -/
theorem c3_failed_task_mutations_invisible :
    (∀ (ex : EventDrivenExecutor) (task : Task) (ed : Smap) (e : String),
      (task.action ex.initial_inputs ex.current_outputs ex.state
          ex.sim_time.current_time ed).error = some e →
        execute_task ex task ed = (ex, .error (task.name, e)))
  ∧ (∀ (ed : Smap) (pre post : List Task) (task : Task)
      (ex : EventDrivenExecutor) (e : String),
      (task.action (processTasksInOrder ed pre ex).1.initial_inputs
          (processTasksInOrder ed pre ex).1.current_outputs
          (processTasksInOrder ed pre ex).1.state
          (processTasksInOrder ed pre ex).1.sim_time.current_time
          ed).error = some e →
        (processTasksInOrder ed (pre ++ task :: post) ex).1
          = (processTasksInOrder ed (pre ++ post) ex).1) := by
  constructor
  · exact fun ex task ed e herr => execute_task_error ex task ed e herr
  · intro ed pre post task ex e
    induction pre generalizing ex with
    | nil =>
      intro herr
      simp only [processTasksInOrder] at herr
      have hstep := execute_task_error ex task ed e herr
      simp only [List.nil_append, processTasksInOrder, hstep]
    | cons p ps ih =>
      intro herr
      cases hstep : execute_task ex p ed with
      | mk ex₂ res =>
        cases res with
        | ok pes =>
          simp only [List.cons_append, processTasksInOrder, hstep] at herr ⊢
          exact ih ex₂ herr
        | error err =>
          simp only [List.cons_append, processTasksInOrder, hstep] at herr ⊢
          exact ih ex₂ herr

/-- Witness for C3: task B (which writes to both private copies before
raising) leaves the concrete executor untouched inline, and a batch of A
then B ends in the same executor as the batch of A alone. -/
theorem c3_failed_task_witness :
    execute_task baseExecutor failTask [] = (baseExecutor, .error ("B", "boom"))
  ∧ (processTasksInOrder [] ([okTask] ++ failTask :: []) baseExecutor).1
      = (processTasksInOrder [] ([okTask] ++ []) baseExecutor).1 :=
  ⟨c3_failed_task_mutations_invisible.1 baseExecutor failTask [] "boom" rfl,
   c3_failed_task_mutations_invisible.2 [] [okTask] [] failTask baseExecutor
     "boom" rfl⟩

/-! ## C1: the periodic scenario under MaxTimeCondition(5) -/

attribute [local semireducible] Rat.add Rat.sub

/-- The pending periodic re-arm event at time t. -/
def tickEvent (t : ℚ) : Event :=
  { time := t, name := "periodic_tick", data := [("task", Value.vStr "tick")] }

/-- The event queue holding the single pending periodic re-arm event. -/
def tickQ (t : ℚ) (c : ℕ) : EventQueue :=
  { entries := [⟨t, 0, c, tickEvent t⟩], counter := c + 1 }

/-- The log record of the k-th firing, at time t. -/
def tickRec (k : ℕ) (t : ℚ) : RoundRecord :=
  { round_number := k,
    inputs := [("event", Value.vStr "periodic_tick"), ("time", Value.vRat t)],
    outputs := [], state := [("ticks", Value.vInt (k : ℤ))],
    task_order := some ["tick"] }

/-- The executor state of the periodic scenario after its k-th firing:
trigger latched at the firing time, the re-arm event pending, the clock at
the firing time. -/
def tickChk (k : ℕ) (latch qt cur : ℚ) (recs : List RoundRecord) :
    EventDrivenExecutor :=
  let task : Task :=
    { name := "tick", depends_on := [], action := tickAction,
      trigger := some (Trigger.periodic 2 (some latch)) }
  { tasks := [task],
    state := [("ticks", Value.vInt (k : ℤ))], inputs := [],
    current_outputs := [], input_generator := none,
    termination_condition := .maxTime 5, input_event_name := "input_ready",
    input_interval := none, initial_inputs := [],
    event_queue := tickQ qt k,
    sim_time := { start_time := 0, current_time := cur },
    log := ⟨recs⟩, event_count := k, input_round := 0 }

/-- The loop entry state: the seed periodic event scheduled at time 0. -/
def tickStart : EventDrivenExecutor :=
  { tickExecutor with event_queue := tickQ 0 0 }

def tickAfter1 : EventDrivenExecutor := tickChk 1 0 2 0 [tickRec 1 0]

def tickAfter2 : EventDrivenExecutor :=
  tickChk 2 2 4 2 [tickRec 1 0, tickRec 2 2]

def tickAfter3 : EventDrivenExecutor :=
  tickChk 3 4 6 4 [tickRec 1 0, tickRec 2 2, tickRec 3 4]

def tickAfter4 : EventDrivenExecutor :=
  tickChk 4 6 8 6 [tickRec 1 0, tickRec 2 2, tickRec 3 4, tickRec 4 6]

theorem tickStep1 :
    runStep (fun _ ts => ts) tickStart = .inr tickAfter1 := rfl

theorem tickStep2 :
    runStep (fun _ ts => ts) tickAfter1 = .inr tickAfter2 := rfl

theorem tickStep3 :
    runStep (fun _ ts => ts) tickAfter2 = .inr tickAfter3 := rfl

theorem tickStep4 :
    runStep (fun _ ts => ts) tickAfter3 = .inr tickAfter4 := rfl

/-- In the fifth iteration the clock already reads 6 ≥ 5, so the
termination check fires before any pop. -/
theorem tickStep5 :
    runStep (fun _ ts => ts) tickAfter4 = .inl (tickAfter4, .finished) := rfl

/-- The full evaluation of the periodic scenario. -/
theorem tickRun :
    EventDrivenExecutor.run (fun _ ts => ts) 10 tickExecutor
      = (tickAfter4, RunOutcome.finished) := by
  have h10 : EventDrivenExecutor.run (fun _ ts => ts) 10 tickExecutor
      = runLoop (fun _ ts => ts) 10 tickStart := rfl
  rw [h10]
  rw [show (10 : ℕ) = 9 + 1 from rfl, runLoop, tickStep1]
  show runLoop (fun _ ts => ts) 9 tickAfter1 = (tickAfter4, RunOutcome.finished)
  rw [show (9 : ℕ) = 8 + 1 from rfl, runLoop, tickStep2]
  show runLoop (fun _ ts => ts) 8 tickAfter2 = (tickAfter4, RunOutcome.finished)
  rw [show (8 : ℕ) = 7 + 1 from rfl, runLoop, tickStep3]
  show runLoop (fun _ ts => ts) 7 tickAfter3 = (tickAfter4, RunOutcome.finished)
  rw [show (7 : ℕ) = 6 + 1 from rfl, runLoop, tickStep4]
  show runLoop (fun _ ts => ts) 6 tickAfter4 = (tickAfter4, RunOutcome.finished)
  rw [show (6 : ℕ) = 5 + 1 from rfl, runLoop, tickStep5]

/-- C1 counterexample: running the PeriodicTrigger(2) / MaxTime(5)
scenario does NOT give three firings at 0, 2 and 4 with ticks 3 and final
time 5.  Termination is checked before the pop, so the t=6 event is
popped and dispatched, and only the following iteration terminates. -/
theorem c1_periodic_counterexample :
    ¬ (Smap.get (EventDrivenExecutor.run (fun _ ts => ts) 10 tickExecutor).1.state
          "ticks" = some (Value.vInt 3)
      ∧ (EventDrivenExecutor.run (fun _ ts => ts) 10 tickExecutor).1.sim_time.current_time
          = 5
      ∧ firingTimes (EventDrivenExecutor.run (fun _ ts => ts) 10 tickExecutor).1.log
          = [Value.vRat 0, Value.vRat 2, Value.vRat 4]) := by
  rw [tickRun]
  decide

/-- C1 (amended): the run finishes, and the task fires exactly four
times, at simulation times 0, 2, 4 and 6; at termination state.ticks is 4
and the simulation time is 6. -/
theorem c1_periodic_four_firings :
    (EventDrivenExecutor.run (fun _ ts => ts) 10 tickExecutor).2
        = RunOutcome.finished
  ∧ Smap.get (EventDrivenExecutor.run (fun _ ts => ts) 10 tickExecutor).1.state
        "ticks" = some (Value.vInt 4)
  ∧ (EventDrivenExecutor.run (fun _ ts => ts) 10 tickExecutor).1.sim_time.current_time
        = 6
  ∧ firingTimes (EventDrivenExecutor.run (fun _ ts => ts) 10 tickExecutor).1.log
        = [Value.vRat 0, Value.vRat 2, Value.vRat 4, Value.vRat 6] := by
  rw [tickRun]
  decide

/-! ## C2: parallel failure — error surfaces, but the merge is visible -/

/-- C2 counterexample: in the A / B parallel-failure scenario a TaskError
naming B is raised and no round record is logged, but A's merge of
state.ok = true IS visible in the component state afterwards — the
parallel path joins every future and merges each success before the first
error is raised. -/
theorem c2_parallel_counterexample :
    (EventDrivenExecutor.run (fun _ ts => ts) 5 baseExecutor).2
        = RunOutcome.errored (RunError.taskError "B" "Error in task B: boom")
  ∧ (EventDrivenExecutor.run (fun _ ts => ts) 5 baseExecutor).1.log.rounds = []
  ∧ Smap.get (EventDrivenExecutor.run (fun _ ts => ts) 5 baseExecutor).1.state
        "ok" = some (Value.vBool true) := by
  decide

/-- C2 (amended): whichever of the two completion orders the thread pool
produces, the run aborts with a TaskError naming B, no RoundRecord is
appended for the event, and A's successful write state.ok = true is
visible in the component state afterwards. -/
theorem c2_parallel_failure_amended (order : List Task)
    (h : order = [okTask, failTask] ∨ order = [failTask, okTask]) :
    (EventDrivenExecutor.run (fun _ _ => order) 5 baseExecutor).2
        = RunOutcome.errored (RunError.taskError "B" "Error in task B: boom")
  ∧ (EventDrivenExecutor.run (fun _ _ => order) 5 baseExecutor).1.log.rounds = []
  ∧ Smap.get (EventDrivenExecutor.run (fun _ _ => order) 5 baseExecutor).1.state
        "ok" = some (Value.vBool true) := by
  rcases h with rfl | rfl <;> decide

/-- Witness for the amended C2 at the declared completion order. -/
theorem c2_parallel_failure_witness :
    (EventDrivenExecutor.run (fun _ _ => [okTask, failTask]) 5 baseExecutor).2
        = RunOutcome.errored (RunError.taskError "B" "Error in task B: boom")
  ∧ (EventDrivenExecutor.run (fun _ _ => [okTask, failTask]) 5 baseExecutor).1.log.rounds
        = []
  ∧ Smap.get (EventDrivenExecutor.run (fun _ _ => [okTask, failTask]) 5
        baseExecutor).1.state "ok" = some (Value.vBool true) :=
  c2_parallel_failure_amended [okTask, failTask] (Or.inl rfl)

/-! ## C10: run() resets round counter and log, not the component state -/

/-- C10: every call to the synchronous Executor.run begins at round 0
with a fresh empty log — the run result is independent of whatever log
and round counter the executor carried — while the component state is not
reset: on the concrete one-round counter, a first run ends with n = 1 and
one log record for round 1, and a second run on the resulting executor
again logs exactly one record for round 1 (the first run's record is
discarded) but continues the state to n = 2. -/
theorem c10_run_resets_log_not_state :
    (∀ (ex : Executor) (fuel : ℕ) (l : ExecutionLog) (r : ℕ),
      Executor.run fuel { ex with log := l, current_round := r }
        = Executor.run fuel ex)
  ∧ ((Executor.run 3 counterExecutor).2 = RunOutcome.finished
    ∧ Smap.get (Executor.run 3 counterExecutor).1.component.state "n"
        = some (Value.vInt 1)
    ∧ (Executor.run 3 counterExecutor).1.log.rounds.map RoundRecord.round_number
        = [1]
    ∧ (Executor.run 3 (Executor.run 3 counterExecutor).1).2 = RunOutcome.finished
    ∧ Smap.get (Executor.run 3 (Executor.run 3 counterExecutor).1).1.component.state
        "n" = some (Value.vInt 2)
    ∧ (Executor.run 3 (Executor.run 3 counterExecutor).1).1.log.rounds.map
        RoundRecord.round_number = [1]) := by
  refine ⟨fun ex fuel l r => rfl, ?_⟩
  decide

end MIMIC
